import Mathlib

/-! XMC-Sniffer: the trace recorder `record()` of `src/sniffer.c`

A shallow embedding of `record()` (lines 117-166) as a step function on an
explicit state.  The two hardware reads of the function, `GetInput()` and
`systick()`, are taken from an environment that gives the value of the
k-th read of the port input register and of the k-th read of the SysTick
current-value register.

Machine arithmetic: `uint32_t` values are `Nat` with an explicit
`% 2^32`; `ticks_left` (`int64_t`) is an `Int` (it starts within
`2^31 * 2^32 / 1000` of zero and only ever decreases, by less than `2^24`
per step and never again once it is negative, so it cannot leave the
`int64_t` range); `n` (`int`) is a `Nat` (it is reset to 0 and only ever
incremented, below `NMAX`).
-/

namespace Sniffer

/-! ## Constants and hardware reads -/

/-- The macro `NMAX` (line 105): capacity of `trace[]`. -/
def NMAX : Nat := 10000

/-- The function `GetInput()` (lines 100-103) applied to the value read from
the port input register: pins 8-15. -/
def GetInput (portIN : Nat) : Nat := (portIN >>> 8) &&& 0xff

/-- The expression `systick() << 8` in `uint32_t` arithmetic, applied to the
value read from the SysTick current-value register. -/
def shl8 (cvr : Nat) : Nat := (cvr <<< 8) % 2 ^ 32

/-- Subtraction of two `uint32_t` values (wraps modulo `2^32`). -/
def sub32 (a b : Nat) : Nat := (a % 2 ^ 32 + (2 ^ 32 - b % 2 ^ 32)) % 2 ^ 32

/-- The environment of one call: the successive values of the port input
register (one per call of `GetInput()`) and of the SysTick current-value
register (one per call of `systick()`). -/
structure Env where
  portIN : Nat → Nat
  cvr : Nat → Nat

/-! ## State -/

/-- Control points of `record()`. -/
inductive PC
  | outer   -- at the test of `while (ticks_left >= 0)` (line 127)
  | inner   -- at the test of the inner `while` (line 129)
  | commit  -- after the inner loop (line 153)
  | done    -- `record()` has returned `n`
  deriving DecidableEq, Repr

/-- Ghost record of what the encoder did to `trace[]`. -/
inductive Event
  | timeoutAppend (i : Nat) (level : Nat)  -- line 141 wrote `trace[i]`
  | timeoutMerge (i : Nat) (level : Nat)   -- line 144 incremented `trace[i]`
  | commit (i : Nat) (level : Nat) (elapsed : Nat)  -- line 156 wrote `trace[i]`, `elapsed = passed_ticks >> 8`
  deriving DecidableEq, Repr

/-- The variables of `record()` and the globals `trace`, `n`, followed by
read counters for the environment and two ghost fields that do not
influence the run: `oob` becomes true when `trace[]` is indexed outside
`[0, NMAX)`, and `log` lists the encoder events, oldest first. -/
structure State where
  pc : PC
  last_value : Nat
  last_ticks : Nat
  new_value : Nat
  ticks_left : Int
  n : Nat
  trace : Nat → Nat
  reads_in : Nat
  reads_cvr : Nat
  oob : Bool
  log : List Event

/-- Assignment `trace[i] = w`. -/
def setTrace (t : Nat → Nat) (i w : Nat) : Nat → Nat :=
  fun j => if j = i then w else t j

/-- The statement `(ticks_left -= d) || ticks_left--;` guarded by
`if (ticks_left)` (lines 147-148 and 159-160). -/
def spend (ticks_left : Int) (d : Nat) : Int :=
  if ticks_left ≠ 0 then
    (if ticks_left - d ≠ 0 then ticks_left - d else ticks_left - d - 1)
  else ticks_left

/-! ## The encoder: the two places that write `trace[]` -/

/-- The test of lines 136-138 that selects "start a new long record".  The
word `trace[n-1]` is read only when `n != 0` (short-circuit `||`). -/
def needsNewLong (n : Nat) (trace : Nat → Nat) (last_value : Nat) : Bool :=
  n == 0 ||
  (trace (n - 1) &&& 0x800000ff) != (0x80000000 ||| last_value) ||
  (trace (n - 1) &&& 0xffffff00) == 0xffffff00

/-- Result of the trace update of a timeout (lines 136-145). -/
inductive TimeoutResult
  | refused                                  -- `break` of line 139
  | written (n : Nat) (trace : Nat → Nat) (ev : Event)

/-- Lines 136-145: the trace update made when a timeout is detected. -/
def timeoutWrite (n : Nat) (trace : Nat → Nat) (last_value : Nat) : TimeoutResult :=
  if needsNewLong n trace last_value then
    if n ≥ NMAX then .refused
    else .written (n + 1) (setTrace trace n ((0x80000100 ||| last_value) % 2 ^ 32))
           (.timeoutAppend n last_value)
  else
    .written n (setTrace trace (n - 1) ((trace (n - 1) + 0x100) % 2 ^ 32))
      (.timeoutMerge (n - 1) last_value)

/-- The index of `trace[]` that an encoder event wrote. -/
def Event.index : Event → Nat
  | .timeoutAppend i _ => i
  | .timeoutMerge i _ => i
  | .commit i _ _ => i

/-- Ghost: `trace[i]` is indexed outside the array. -/
def outside (i : Nat) : Bool := !(decide (i < NMAX))

/-- Ghost: the read of `trace[n-1]` in the test of lines 137-138, made when
`n != 0`, is outside the array. -/
def readOob (n : Nat) : Bool := n != 0 && outside (n - 1)

/-- The word written by the commit path, `passed_ticks | last_value`
(line 156), with `passed_ticks = last_ticks - new_ticks` (line 154). -/
def commitWord (last_ticks new_ticks last_value : Nat) : Nat :=
  (sub32 last_ticks new_ticks ||| last_value) % 2 ^ 32

/-! ## The step function -/

/-- Body of the inner loop (lines 131-150) for the timer value `cvr` just read. -/
def innerBody (s : State) (cvr : Nat) : State :=
  let new_ticks := shl8 cvr
  let passed_ticks := sub32 s.last_ticks new_ticks
  if passed_ticks > 0x7fffffff then
    match timeoutWrite s.n s.trace s.last_value with
    | .refused =>
        -- `break` leaves the inner loop
        { s with pc := .commit, oob := s.oob || readOob s.n }
    | .written n1 trace1 ev =>
        { s with
          pc := .inner
          n := n1
          trace := trace1
          last_ticks := sub32 s.last_ticks 0x80000000
          ticks_left := spend s.ticks_left 0x800000
          oob := s.oob || readOob s.n || outside ev.index
          log := s.log ++ [ev] }
  else
    { s with pc := .inner }

/-- The code after the inner loop (lines 153-161) for the timer value `cvr`
just read. -/
def commitBody (s : State) (cvr : Nat) : State :=
  let new_ticks := shl8 cvr
  let passed_ticks := sub32 s.last_ticks new_ticks
  if s.n ≥ NMAX then
    { s with pc := .done }
  else
    { s with
      pc := .outer
      trace := setTrace s.trace s.n (commitWord s.last_ticks new_ticks s.last_value)
      n := s.n + 1
      last_ticks := new_ticks
      last_value := s.new_value
      ticks_left := spend s.ticks_left (passed_ticks >>> 8)
      oob := s.oob || outside s.n
      log := s.log ++ [.commit s.n s.last_value (passed_ticks >>> 8)] }

/-- One step of `record()` from a control point to the next. -/
def step (env : Env) (s : State) : State :=
  match s.pc with
  | .outer =>
      if s.ticks_left ≥ 0 then { s with pc := .inner } else { s with pc := .done }
  | .inner =>
      -- `(new_value = GetInput()) == last_value && ticks_left >= 0`
      let new_value := GetInput (env.portIN s.reads_in)
      let s1 := { s with new_value := new_value, reads_in := s.reads_in + 1 }
      if new_value = s.last_value ∧ s.ticks_left ≥ 0 then
        innerBody { s1 with reads_cvr := s1.reads_cvr + 1 } (env.cvr s1.reads_cvr)
      else
        { s1 with pc := .commit }
  | .commit =>
      commitBody { s with reads_cvr := s.reads_cvr + 1 } (env.cvr s.reads_cvr)
  | .done => s

/-- The state at the first test of the outer loop (lines 119-126): the
first reads of the input and the timer, the budget, and `n = 0`.  The
argument `trace0` is what `trace[]` holds before the call. -/
def init (env : Env) (tmax : Int) (core_clock : Nat) (trace0 : Nat → Nat) : State :=
  { pc := .outer
    last_value := GetInput (env.portIN 0)
    last_ticks := shl8 (env.cvr 0)
    new_value := 0
    ticks_left := tmax * ((core_clock % 2 ^ 32 / 1000 : Nat) : Int)
    n := 0
    trace := trace0
    reads_in := 1
    reads_cvr := 1
    oob := false
    log := [] }

/-- The state after `k` steps. -/
def run (env : Env) (k : Nat) (s : State) : State :=
  match k with
  | 0 => s
  | k + 1 => run env k (step env s)

/-- The call `record(tmax)`, run for at most `fuel` steps: the value returned,
if it returns within that many steps. -/
def record (env : Env) (tmax : Int) (core_clock : Nat) (trace0 : Nat → Nat)
    (fuel : Nat) : Option Nat :=
  let s := run env fuel (init env tmax core_clock trace0)
  if s.pc = .done then some s.n else none

/-! ## The record format (doc comment, lines 64-97) -/

/-- Bit 31 of a trace word: 0 = short record, 1 = long record. -/
def fmtBit (w : Nat) : Nat := w / 2 ^ 31 % 2

/-- Bits 30-8 of a trace word: the 23-bit count. -/
def countOf (w : Nat) : Nat := w / 2 ^ 8 % 2 ^ 23

/-- Bits 7-0 of a trace word: the input levels. -/
def sampleOf (w : Nat) : Nat := w % 2 ^ 8

/-- The spec's condition under which a timeout appends a new long record:
the buffer is empty, or the last record is not a long record with sample
`v`, or the count of the last record is `2^23 - 1`. -/
def appendCase (n : Nat) (trace : Nat → Nat) (v : Nat) : Prop :=
  n = 0 ∨ ¬ (fmtBit (trace (n - 1)) = 1 ∧ sampleOf (trace (n - 1)) = v) ∨
    countOf (trace (n - 1)) = 2 ^ 23 - 1

/-- A timeout is detected by the step from `s`: the step is an iteration of
the inner loop (same level, budget not negative) whose timer reading is at
least half the counter range past the boundary (line 134). -/
def timeoutDetected (env : Env) (s : State) : Prop :=
  s.pc = .inner ∧ GetInput (env.portIN s.reads_in) = s.last_value ∧ s.ticks_left ≥ 0 ∧
    sub32 s.last_ticks (shl8 (env.cvr s.reads_cvr)) > 0x7fffffff

/-- The spec's elapsed ticks between a previous reading `p` and the current
reading `c` of the 24-bit down-counter: `(p - c) mod 2^24`. -/
def elapsed (p c : Nat) : Nat := (((p : Int) - (c : Int)) % 2 ^ 24).toNat

/-- Scenario A: level `0x01`, an edge seen at 5 elapsed ticks, then level
`0x02`, an edge seen at 10 elapsed ticks; the counter starts at 3 and wraps. -/
def envA : Env :=
  { portIN := fun k => if k < 2 then 0x0100 else if k < 4 then 0x0200 else 0x0100
    cvr := fun k =>
      if k = 0 then 3 else if k = 1 then 1 else if k = 2 then 0xFFFFFE
      else if k = 3 then 0xFFFFFA else 0xFFFFF4 }

/-- Scenario B: constant level `0x00`; three timeouts are detected (at
`2^23+1`, `2*2^23+2` and `3*2^23+3` ticks after the start) and the last
timer reading is 100 ticks past the third unit boundary.  The counter
starts at 0 and wraps. -/
def envB : Env :=
  { portIN := fun _ => 0
    cvr := fun k =>
      if k = 0 then 0 else if k = 1 then 0x7FFFFF else if k = 2 then 0xFFFFFE
      else if k = 3 then 0x7FFFFD else 0x7FFF9C }

/-- The timer readings come from a free-running 24-bit down-counter that
advances by at least 1 tick and by fewer than `2^23` ticks between any two
consecutive reads. -/
def freeRunning (env : Env) : Prop :=
  ∀ k, env.cvr k < 2 ^ 24 ∧ 1 ≤ elapsed (env.cvr k) (env.cvr (k + 1)) ∧
    elapsed (env.cvr k) (env.cvr (k + 1)) < 2 ^ 23

/-- A race at the unit boundary: level `0x01` is held; the inner loop reads
the timer `2^23 - 3` ticks after the start (no timeout yet), the next input
read shows level `0x02`, and the commit reads the timer 5 ticks later, `2^23 + 2`
ticks after the start.  Every later read is 5 ticks after the one before. -/
def envRace : Env :=
  { portIN := fun k => if k < 2 then 0x0100 else 0x0200
    cvr := fun k => if k = 0 then 0xFFFFFF else (0x800002 + 2 ^ 24 * k - 5 * (k - 1)) % 2 ^ 24 }

/-- The invariant of `record()`: `n` is within the array and no access was
outside it. -/
def Inv (s : State) : Prop := s.n ≤ NMAX ∧ s.oob = false

/-- The state of an unbounded session at the outer loop test after `k` edges
when the input level alternates between 0 and 1 at every read. -/
def EdgeState (env : Env) (k : Nat) (s : State) : Prop :=
  s.pc = .outer ∧ s.ticks_left = 0 ∧ s.n = k ∧ s.last_value = k % 2 ∧
    s.reads_in = k + 1 ∧ s.reads_cvr = k + 1 ∧ s.last_ticks = shl8 (env.cvr k) ∧
    (k ≠ 0 → sampleOf (s.trace (k - 1)) = (k - 1) % 2)

/-- An input that changes level at every read, with a timer that is read 5
ticks later each time. -/
def envEdges : Env :=
  { portIN := fun j => (j % 2) <<< 8
    cvr := fun j => (2 ^ 24 * (j + 1) - 1 - 5 * j) % 2 ^ 24 }

/-- An input that changes level at each of the first `NMAX - 1` reads after
the start and then stays at level 1, with a timer read `2^23 + 5` ticks
after the last edge and then `2^23` ticks later. -/
def envFull : Env :=
  { portIN := fun j => if j < NMAX then (j % 2) <<< 8 else 0x0100
    cvr := fun j =>
      if j < NMAX then 0xFFFFFF - 5 * j else if j = NMAX then 8338607 else 16727215 }

/-- The ticks an encoder event takes from the budget: `2^23` for a processed
timeout (line 148), the elapsed ticks `passed_ticks >> 8` for a word written
by the commit path (line 160). -/
def Event.ticks : Event → Nat
  | .timeoutAppend _ _ => 2 ^ 23
  | .timeoutMerge _ _ => 2 ^ 23
  | .commit _ _ e => e

/-- The ticks consumed during the session so far. -/
def consumed (log : List Event) : Nat := (log.map Event.ticks).sum

/-- The budget accounting of a session with a nonzero budget `B`:
`ticks_left` is never 0, it is `B` minus the consumed ticks (or one less,
once a decrement has hit exactly 0), and a return happens only with a full
buffer or a negative `ticks_left`. -/
def Budget (B : Int) (s : State) : Prop :=
  s.ticks_left ≠ 0 ∧
  (s.ticks_left = B - (consumed s.log : Int) ∨
    (s.ticks_left = B - (consumed s.log : Int) - 1 ∧ B ≤ (consumed s.log : Int))) ∧
  (s.pc = .done → s.n ≥ NMAX ∨ s.ticks_left < 0)

/-- What a reader of the buffer reconstructs: one unit of `2^23` ticks at a
level (from a long record), or an interval of `ticks` ticks at a level that
ends the stretch (from a short record). -/
inductive Obs
  | unit (level : Nat)
  | interval (level : Nat) (ticks : Nat)
  deriving DecidableEq, Repr

/-- The observation an encoder event stands for: a timeout is one unit of
`2^23` ticks at the committed level, a commit is the elapsed ticks at the
level that held. -/
def Event.obs : Event → Obs
  | .timeoutAppend _ v => .unit v
  | .timeoutMerge _ v => .unit v
  | .commit _ v e => .interval v e

/-- Decoding of one trace word by the record format: a long record with
count `r` is `r` units at its sample, a short record is one interval of
`count` ticks at its sample. -/
def decodeWord (w : Nat) : List Obs :=
  if fmtBit w = 1 then List.replicate (countOf w) (.unit (sampleOf w))
  else [.interval (sampleOf w) (countOf w)]

/-- Decoding of `trace[0..n)`. -/
def decode (trace : Nat → Nat) : Nat → List Obs
  | 0 => []
  | n + 1 => decode trace n ++ decodeWord (trace n)

/-- The duration a trace word stands for: `count` ticks for a short record,
`count * 2^23` ticks for a long record. -/
def duration (w : Nat) : Nat := if fmtBit w = 1 then countOf w * 2 ^ 23 else countOf w

/-- The sum of the durations of `trace[0..n)`. -/
def totalDuration (trace : Nat → Nat) : Nat → Nat
  | 0 => 0
  | n + 1 => totalDuration trace n + duration (trace n)

/-- The ticks of an observation. -/
def Obs.ticks : Obs → Nat
  | .unit _ => 2 ^ 23
  | .interval _ e => e

/-- The total ticks of a list of observations. -/
def obsTicks (l : List Obs) : Nat := (l.map Obs.ticks).sum

/-- Every commit among the events has an elapsed time in `[1, 2^23 - 1]`. -/
def ShortCommits (log : List Event) : Prop :=
  ∀ i lv e, Event.commit i lv e ∈ log → 1 ≤ e ∧ e ≤ 2 ^ 23 - 1

/-- The invariant behind the decode round trip: the levels are 8-bit, the
boundary is left-aligned, and, as long as every commit so far was short,
decoding `trace[0..n)` gives back the events, a last word that is a long
record carries the committed level, and the sample changes only after a
short record. -/
def RoundTrip (s : State) : Prop :=
  s.last_value < 256 ∧ s.new_value < 256 ∧ s.last_ticks % 256 = 0 ∧
  (ShortCommits s.log →
    decode s.trace s.n = s.log.map Event.obs ∧
    (s.n ≠ 0 → fmtBit (s.trace (s.n - 1)) = 1 → sampleOf (s.trace (s.n - 1)) = s.last_value) ∧
    (∀ i, i + 1 < s.n → fmtBit (s.trace i) = 1 →
      sampleOf (s.trace (i + 1)) = sampleOf (s.trace i)))

/-- The next `k` steps from `s` are all iterations of the inner loop that
detect a timeout. -/
def TimeoutRun (env : Env) (s : State) (k : Nat) : Prop :=
  ∀ j, j < k → timeoutDetected env (run env j s)

/-- The state `s` reached from `s0` (empty buffer, level `v`) by `j`
consecutive timeouts, `1 <= j <= 2^23 - 1`: one long record of count `j`. -/
def AfterTimeouts (s0 s : State) (v j : Nat) : Prop :=
  s.pc = .inner ∧ s.last_value = v ∧ s.n = 1 ∧ s.trace 0 = 2 ^ 31 + j * 256 + v ∧
  s.reads_in = s0.reads_in + j ∧ s.reads_cvr = s0.reads_cvr + j ∧
  s.last_ticks = (s0.last_ticks + j * 2 ^ 31) % 2 ^ 32 ∧
  (s0.ticks_left = 0 → s.ticks_left = 0)

/-- A constant input at level 5 and a timer that is read exactly `2^23`
ticks later each time. -/
def envT : Env :=
  { portIN := fun _ => 0x0500
    cvr := fun j => if j % 2 = 0 then 0 else 0x800000 }

/-- The state on entry to the loop as lines 119-125 leave it: the globals
`trace` and `n` still hold what an earlier session left there. -/
def entry (env : Env) (tmax : Int) (core_clock : Nat) (trace0 : Nat → Nat) (n0 : Nat) :
    State :=
  { init env tmax core_clock trace0 with n := n0 }

/-- The assignment `n = 0;` of line 126. -/
def resetN (s : State) : State := { s with n := 0 }

/-- Two states of two runs that took the same steps: they agree on everything
except `trace`, and `trace` agrees below `n`. -/
def SameRun (s s1 : State) : Prop :=
  s1 = { s with trace := s1.trace } ∧ ∀ i, i < s.n → s1.trace i = s.trace i

/-- The frame of a session: every element of `trace[]` at an index from `n`
upwards still holds what it held before the call. -/
def Frame (trace0 : Nat → Nat) (s : State) : Prop :=
  ∀ i, s.n ≤ i → s.trace i = trace0 i

/-- Every word the encoder has written so far is at an index below `n`. -/
def LogBelow (s : State) : Prop := ∀ ev ∈ s.log, ev.index < s.n

/-- The levels are 8-bit and the boundary is left-aligned. -/
def Levels (s : State) : Prop :=
  s.last_value < 256 ∧ s.new_value < 256 ∧ s.last_ticks % 256 = 0

/-- The last encoder event wrote the last word: with no event the buffer is
empty, and otherwise the latest event is at index `n - 1`. -/
def LastEvent (s : State) : Prop :=
  (s.log = [] → s.n = 0) ∧ ∀ l ev, s.log = l ++ [ev] → s.n ≠ 0 ∧ ev.index = s.n - 1

/-- What an edge leaves behind: at the commit point the new level differs
from the committed one unless the budget is negative or the buffer is full;
and while the loop continues after a commit, the sample of the word it wrote
differs from the committed level. -/
def EdgeSeen (s : State) : Prop :=
  (s.pc = .commit → s.new_value ≠ s.last_value ∨ s.ticks_left < 0 ∨ s.n ≥ NMAX) ∧
  (∀ l i v e, s.log = l ++ [Event.commit i v e] → s.pc ≠ .done →
    (s.pc = .outer → s.ticks_left ≥ 0) → sampleOf (s.trace (s.n - 1)) ≠ s.last_value)

/-- The words appended by the timeout path: each is a long record with the
level of its timeout; when the last word is one, its level is the committed
level; of two adjacent ones the first is full and both carry the same
sample; every merge went into one of them; and none of them is at the index
of a commit. -/
def Longs (s : State) : Prop :=
  (∀ i v, Event.timeoutAppend i v ∈ s.log →
    fmtBit (s.trace i) = 1 ∧ sampleOf (s.trace i) = v) ∧
  (∀ v, Event.timeoutAppend (s.n - 1) v ∈ s.log → s.n ≠ 0 → v = s.last_value) ∧
  (∀ i v w, Event.timeoutAppend i v ∈ s.log → Event.timeoutAppend (i + 1) w ∈ s.log →
    countOf (s.trace i) = 2 ^ 23 - 1 ∧ sampleOf (s.trace (i + 1)) = sampleOf (s.trace i)) ∧
  (∀ i v, Event.timeoutMerge i v ∈ s.log → ∃ w, Event.timeoutAppend i w ∈ s.log) ∧
  (∀ i v w e, Event.timeoutAppend i v ∈ s.log → Event.commit i w e ∉ s.log)

/-- The provenance invariant of a session. -/
def Prov (s : State) : Prop :=
  Levels s ∧ LogBelow s ∧ LastEvent s ∧ EdgeSeen s ∧ Longs s

/-- The state `s` reached from `s0` by a stretch of `j >= 1` consecutive
timeouts whose first one appended: the level is unchanged, the stretch
occupies `ceil(j / (2^23 - 1))` words (`2^23 - 1 = 8388607`), all appended by
the timeout path, and the last of them has count `(j - 1) mod (2^23 - 1) + 1`. -/
def StretchAfter (s0 s : State) (j : Nat) : Prop :=
  s.pc = .inner ∧ s.last_value = s0.last_value ∧
  s.n = s0.n + (j + 8388606) / 8388607 ∧
  s.trace (s.n - 1) = 2 ^ 31 + ((j - 1) % 8388607 + 1) * 256 + s0.last_value ∧
  (∀ i, s0.n ≤ i → i < s.n → Event.timeoutAppend i s0.last_value ∈ s.log)

/-- A race at the unit boundary followed by a timeout: as `envRace` up to the
commit, whose word `0x80000201` has bit 31 set; then level `0x02` is held and
the next timer read is `2^23 + 1` ticks after the commit. -/
def envRace2 : Env :=
  { portIN := fun k => if k < 2 then 0x0100 else 0x0200
    cvr := fun k =>
      if k = 0 then 0xFFFFFF else if k = 1 then 0x800002 else if k = 2 then 0x7FFFFD
      else 0xFFFFFC }

/-! ## Bit-level facts -/

theorem or_low (a b : Nat) (ha : a % 256 = 0) (hb : b < 256) : a ||| b = a + b := by
  have h := Nat.mul_add_lt_is_or (i := 8) (b := b) hb (a / 256)
  have h2 : 2 ^ 8 * (a / 256) = a := by omega
  rw [h2] at h
  exact h.symm

theorem and_ff (w : Nat) : w &&& 0xff = w % 256 :=
  Nat.and_pow_two_sub_one_eq_mod w 8

theorem and_ffffff00 (w : Nat) : w &&& 0xffffff00 = (w / 256 % 2 ^ 24) * 256 := by
  apply Nat.eq_of_testBit_eq
  intro i
  have h1 : (0xffffff00 : Nat) = 2 ^ 8 * (2 ^ 24 - 1) := by norm_num
  have h2 : (w / 256 % 2 ^ 24) * 256 = 2 ^ 8 * ((w >>> 8) % 2 ^ 24) := by
    rw [Nat.shiftRight_eq_div_pow]; ring
  rw [Nat.testBit_and, h1, h2, Nat.testBit_mul_pow_two, Nat.testBit_mul_pow_two,
    Nat.testBit_two_pow_sub_one, Nat.testBit_mod_two_pow, Nat.testBit_shiftRight]
  by_cases h : i ≥ 8
  · have h3 : 8 + (i - 8) = i := by omega
    simp [h, h3, Bool.and_comm]
  · simp [h]

theorem and_80000000 (w : Nat) : w &&& 0x80000000 = (w / 2 ^ 31 % 2) * 2 ^ 31 := by
  have h := Nat.and_two_pow w 31
  rw [Nat.testBit_to_div_mod] at h
  have h1 : (0x80000000 : Nat) = 2 ^ 31 := by norm_num
  rw [h1, h]
  rcases Nat.mod_two_eq_zero_or_one (w / 2 ^ 31) with hb | hb
  · rw [hb]; simp
  · rw [hb]; simp

theorem and_800000ff (w : Nat) :
    w &&& 0x800000ff = (w / 2 ^ 31 % 2) * 2 ^ 31 + w % 256 := by
  have h1 : (0x800000ff : Nat) = 0x80000000 ||| 0xff := by decide
  rw [h1, Nat.and_or_distrib_left, and_80000000, and_ff]
  apply or_low
  · omega
  · omega

theorem shl8_of_lt (c : Nat) (hc : c < 2 ^ 24) : shl8 c = c * 256 := by
  unfold shl8
  rw [Nat.shiftLeft_eq]
  omega

theorem sub32_shl (p c : Nat) (hp : p < 2 ^ 24) (hc : c < 2 ^ 24) :
    sub32 (p * 256) (c * 256) = elapsed p c * 256 := by
  unfold sub32 elapsed
  omega

theorem elapsed_lt (p c : Nat) : elapsed p c < 2 ^ 24 := by
  unfold elapsed
  omega

theorem commitWord_eq (p c v : Nat) (hp : p < 2 ^ 24) (hc : c < 2 ^ 24) (hv : v < 256) :
    commitWord (p * 256) (c * 256) v = elapsed p c * 256 + v := by
  unfold commitWord
  rw [sub32_shl p c hp hc, or_low _ _ (by omega) hv]
  have := elapsed_lt p c
  omega

theorem shl_or_eq (e v : Nat) (hv : v < 256) : (e <<< 8) ||| v = e * 256 + v := by
  rw [Nat.shiftLeft_eq, or_low _ _ (by omega) hv]

theorem needsNewLong_iff (n : Nat) (trace : Nat → Nat) (v : Nat) (hv : v < 256) :
    needsNewLong n trace v = true ↔ appendCase n trace v := by
  unfold needsNewLong appendCase fmtBit countOf sampleOf
  rw [and_800000ff, and_ffffff00, or_low 0x80000000 v (by norm_num) hv]
  simp only [Bool.or_eq_true, beq_iff_eq, bne_iff_ne, ne_eq]
  rcases Nat.mod_two_eq_zero_or_one (trace (n - 1) / 2 ^ 31) with h | h
  · rw [h]; omega
  · rw [h]; omega

theorem step_timeout (env : Env) (s : State) (h : timeoutDetected env s) :
    step env s =
      (match timeoutWrite s.n s.trace s.last_value with
       | .refused =>
           { s with
             pc := .commit
             new_value := s.last_value
             reads_in := s.reads_in + 1
             reads_cvr := s.reads_cvr + 1
             oob := s.oob || readOob s.n }
       | .written n1 trace1 ev =>
           { s with
             pc := .inner
             new_value := s.last_value
             reads_in := s.reads_in + 1
             reads_cvr := s.reads_cvr + 1
             n := n1
             trace := trace1
             last_ticks := sub32 s.last_ticks 0x80000000
             ticks_left := spend s.ticks_left 0x800000
             oob := s.oob || readOob s.n || outside ev.index
             log := s.log ++ [ev] }) := by
  obtain ⟨hpc, hin, htl, hto⟩ := h
  unfold step
  rw [hpc]
  simp only [hin, htl, and_self, if_true]
  unfold innerBody
  simp only [hto, if_true]

/-! ## C1: the commit step -/

/-- C1. Commit (edge) step of `record()`: at the commit point with boundary
reading `p`, current reading `c` (both 24-bit), committed level `v < 256`
and `n < NMAX`, the step writes exactly the word
`(((p - c) mod 2^24) << 8) | v` at index `n` and increases `n` by 1; bits 7-0
of the word are `v`; when the elapsed ticks are below `2^23` bit 31 is 0 and
bits 30-8 are the elapsed ticks; afterwards `c` is the boundary and the newly
sampled level is the committed level.  Scenario A gives
`trace[0] = 0x00000501`, `trace[1] = 0x00000A02`. -/
theorem commit_step_appends_short_record (env : Env) (s : State) (p v : Nat)
    (hpc : s.pc = .commit) (hp : p < 2 ^ 24) (hc : env.cvr s.reads_cvr < 2 ^ 24)
    (hlt : s.last_ticks = p <<< 8) (hv : s.last_value = v) (hv256 : v < 256)
    (hn : s.n < NMAX) :
    let c := env.cvr s.reads_cvr
    let w := ((elapsed p c) <<< 8) ||| v
    (step env s).trace = setTrace s.trace s.n w ∧
    (step env s).n = s.n + 1 ∧
    w % 256 = v ∧
    (elapsed p c < 2 ^ 23 → w / 2 ^ 31 % 2 = 0 ∧ w / 256 % 2 ^ 23 = elapsed p c) ∧
    (step env s).last_ticks = c <<< 8 ∧
    (step env s).last_value = s.new_value ∧
    ((run envA 8 (init envA 0 120000000 (fun _ => 0))).n = 2 ∧
     (run envA 8 (init envA 0 120000000 (fun _ => 0))).trace 0 = 0x00000501 ∧
     (run envA 8 (init envA 0 120000000 (fun _ => 0))).trace 1 = 0x00000A02) := by
  intro c w
  have hw : w = elapsed p c * 256 + v := shl_or_eq _ _ hv256
  have hlt2 : s.last_ticks = p * 256 := by rw [hlt, Nat.shiftLeft_eq]
  have hnn : ¬ s.n ≥ NMAX := by omega
  have hstep : step env s = commitBody { s with reads_cvr := s.reads_cvr + 1 } c := by
    unfold step; rw [hpc]
  rw [hstep]
  unfold commitBody
  simp only [hnn, if_false]
  refine ⟨?_, trivial, ?_, ?_, ?_, trivial, ?_⟩
  · show setTrace s.trace s.n (commitWord s.last_ticks (shl8 c) s.last_value) = _
    rw [hlt2, shl8_of_lt c hc, hv, commitWord_eq p c v hp hc hv256, hw]
  · omega
  · intro he
    omega
  · show shl8 c = c <<< 8
    rw [shl8_of_lt c hc, Nat.shiftLeft_eq]
  · decide

/-- Witness for C1: the first commit of Scenario A (boundary 3, reading
`0xFFFFFE`, level 1, `n = 0`). -/
theorem commit_step_appends_short_record_witness :
    (step envA (run envA 3 (init envA 0 120000000 (fun _ => 0)))).trace 0 = 0x501 ∧
    (step envA (run envA 3 (init envA 0 120000000 (fun _ => 0)))).n = 1 := by
  have h := commit_step_appends_short_record envA
    (run envA 3 (init envA 0 120000000 (fun _ => 0))) 3 1
    (by decide) (by decide) (by decide) (by decide) (by decide) (by decide) (by decide)
  refine ⟨?_, h.2.1⟩
  rw [h.1]
  decide

/-! ## C2: the timeout step -/

/-- C2. Timeout step of `record()`: when a timeout is detected in a state with
committed level `v < 256` and `n <= NMAX`, then (a) in the append case
(`n = 0`, or `trace[n-1]` is not a long record with sample `v`, or its count
is `2^23-1`) and with `n < NMAX` the step writes `0x80000100 | v` at index
`n` and increases `n` by 1; (b) otherwise it replaces `trace[n-1]` by the
word with the count one higher and the same format bit and sample, leaving
`n` and every other element unchanged; (c) the step refuses (leaves the
inner loop, `trace` and `n` untouched) exactly in the append case with
`n = NMAX`. -/
theorem timeout_step_appends_or_merges (env : Env) (s : State) (v : Nat)
    (hto : timeoutDetected env s) (hv : s.last_value = v) (hv256 : v < 256)
    (hn : s.n ≤ NMAX) :
    (appendCase s.n s.trace v → s.n < NMAX →
      (step env s).trace = setTrace s.trace s.n (0x80000100 ||| v) ∧
      (step env s).n = s.n + 1 ∧ (step env s).pc = .inner) ∧
    (¬ appendCase s.n s.trace v →
      (step env s).n = s.n ∧ (step env s).pc = .inner ∧
      ∃ w, (step env s).trace = setTrace s.trace (s.n - 1) w ∧
        countOf w = countOf (s.trace (s.n - 1)) + 1 ∧
        fmtBit w = fmtBit (s.trace (s.n - 1)) ∧
        sampleOf w = sampleOf (s.trace (s.n - 1))) ∧
    ((step env s).pc = .commit ↔ (appendCase s.n s.trace v ∧ s.n = NMAX)) ∧
    ((step env s).pc = .commit → (step env s).trace = s.trace ∧ (step env s).n = s.n) := by
  have hiff := needsNewLong_iff s.n s.trace v hv256
  rw [step_timeout env s hto]
  unfold timeoutWrite
  rw [hv]
  by_cases hc : appendCase s.n s.trace v
  · have hnl : needsNewLong s.n s.trace v = true := hiff.mpr hc
    by_cases hlt : s.n < NMAX
    · have hge : ¬ s.n ≥ NMAX := by omega
      rw [if_pos hnl, if_neg hge]
      have hword : (0x80000100 ||| v) % 2 ^ 32 = 0x80000100 ||| v := by
        rw [or_low _ _ (by norm_num) hv256]; omega
      rw [hword]
      refine ⟨fun _ _ => ⟨rfl, rfl, rfl⟩, fun h => absurd hc h, ?_, ?_⟩
      · constructor
        · intro h; cases h
        · intro h; omega
      · intro h; cases h
    · have hge : s.n ≥ NMAX := by omega
      rw [if_pos hnl, if_pos hge]
      refine ⟨fun _ h => absurd h hlt, fun h => absurd hc h, ?_, ?_⟩
      · constructor
        · intro _; exact ⟨hc, by omega⟩
        · intro _; rfl
      · intro _; exact ⟨rfl, rfl⟩
  · have hnl : ¬ needsNewLong s.n s.trace v = true := fun h => hc (hiff.mp h)
    rw [if_neg hnl]
    refine ⟨fun h => absurd h hc, fun _ => ⟨rfl, rfl, _, rfl, ?_⟩, ?_, ?_⟩
    · unfold appendCase at hc
      unfold countOf fmtBit sampleOf at *
      omega
    · constructor
      · intro h; cases h
      · intro h; exact absurd h.1 hc
    · intro h; cases h

/-- Witness for C2: the first timeout of Scenario B, on the empty buffer. -/
theorem timeout_step_appends_or_merges_witness :
    timeoutDetected envB (run envB 1 (init envB 200 120000000 (fun _ => 0))) ∧
    (step envB (run envB 1 (init envB 200 120000000 (fun _ => 0)))).n = 1 ∧
    (step envB (run envB 1 (init envB 200 120000000 (fun _ => 0)))).trace 0 = 0x80000100 := by
  have hto : timeoutDetected envB (run envB 1 (init envB 200 120000000 (fun _ => 0))) := by
    unfold timeoutDetected; decide
  have h := (timeout_step_appends_or_merges envB
    (run envB 1 (init envB 200 120000000 (fun _ => 0))) 0 hto (by decide) (by decide)
    (by decide)).1 (Or.inl (by decide)) (by decide)
  refine ⟨hto, h.2.1, ?_⟩
  rw [h.1]
  decide

/-! ## C3: the commit path and the 2^23-tick boundary -/

/-- C3 (the code at the failing input). The timer of `envRace` is free-running
with every advance in `[1, 2^23)`, the only encoder event of the first four
steps is a commit at index 0 with `2^23 + 2` elapsed ticks, and the word the
commit path wrote is `0x80000201`: bit 31 is 1 and the count field is 2. -/
theorem commit_word_race_has_bit31_set :
    freeRunning envRace ∧
    (run envRace 4 (init envRace 0 120000000 (fun _ => 0))).log
      = [Event.commit 0 1 (2 ^ 23 + 2)] ∧
    (run envRace 4 (init envRace 0 120000000 (fun _ => 0))).trace 0 = 0x80000201 ∧
    fmtBit ((run envRace 4 (init envRace 0 120000000 (fun _ => 0))).trace 0) = 1 ∧
    countOf ((run envRace 4 (init envRace 0 120000000 (fun _ => 0))).trace 0) = 2 := by
  refine ⟨?_, by decide, by decide, by decide, by decide⟩
  intro k
  by_cases h0 : k = 0
  · subst h0
    decide
  · have h1 : k + 1 ≠ 0 := by omega
    have ha : envRace.cvr k = (8388610 + 16777216 * k - 5 * (k - 1)) % 16777216 := by
      simp [envRace, h0]
    have hb : envRace.cvr (k + 1)
        = (8388610 + 16777216 * (k + 1) - 5 * (k + 1 - 1)) % 16777216 := by
      simp [envRace]
    have hab : envRace.cvr (k + 1) = (envRace.cvr k + 16777216 - 5) % 16777216 := by
      rw [ha, hb]
      omega
    have hlt : envRace.cvr k < 16777216 := by
      rw [ha]
      omega
    unfold elapsed
    omega

/-! ## C4: the capacity invariant -/

/-- Case analysis of one step: a property of a step holds for every state
when it holds in each of the ten ways a step can go. -/
theorem step_cases (env : Env) (P : State → State → Prop)
    (outer_go : ∀ s : State, s.pc = .outer → s.ticks_left ≥ 0 → P s { s with pc := .inner })
    (outer_stop : ∀ s : State, s.pc = .outer → s.ticks_left < 0 → P s { s with pc := .done })
    (inner_exit : ∀ s : State, s.pc = .inner →
      ¬ (GetInput (env.portIN s.reads_in) = s.last_value ∧ s.ticks_left ≥ 0) →
      P s { s with
            pc := .commit
            new_value := GetInput (env.portIN s.reads_in)
            reads_in := s.reads_in + 1 })
    (inner_wait : ∀ s : State, s.pc = .inner →
      GetInput (env.portIN s.reads_in) = s.last_value → s.ticks_left ≥ 0 →
      ¬ sub32 s.last_ticks (shl8 (env.cvr s.reads_cvr)) > 0x7fffffff →
      P s { s with
            pc := .inner
            new_value := s.last_value
            reads_in := s.reads_in + 1
            reads_cvr := s.reads_cvr + 1 })
    (refused : ∀ s : State, timeoutDetected env s →
      needsNewLong s.n s.trace s.last_value = true → s.n ≥ NMAX →
      P s { s with
            pc := .commit
            new_value := s.last_value
            reads_in := s.reads_in + 1
            reads_cvr := s.reads_cvr + 1
            oob := s.oob || readOob s.n })
    (append : ∀ s : State, timeoutDetected env s →
      needsNewLong s.n s.trace s.last_value = true → s.n < NMAX →
      P s { s with
            pc := .inner
            new_value := s.last_value
            reads_in := s.reads_in + 1
            reads_cvr := s.reads_cvr + 1
            n := s.n + 1
            trace := setTrace s.trace s.n ((0x80000100 ||| s.last_value) % 2 ^ 32)
            last_ticks := sub32 s.last_ticks 0x80000000
            ticks_left := spend s.ticks_left 0x800000
            oob := s.oob || readOob s.n || outside s.n
            log := s.log ++ [.timeoutAppend s.n s.last_value] })
    (merge : ∀ s : State, timeoutDetected env s →
      needsNewLong s.n s.trace s.last_value = false →
      P s { s with
            pc := .inner
            new_value := s.last_value
            reads_in := s.reads_in + 1
            reads_cvr := s.reads_cvr + 1
            trace := setTrace s.trace (s.n - 1) ((s.trace (s.n - 1) + 0x100) % 2 ^ 32)
            last_ticks := sub32 s.last_ticks 0x80000000
            ticks_left := spend s.ticks_left 0x800000
            oob := s.oob || readOob s.n || outside (s.n - 1)
            log := s.log ++ [.timeoutMerge (s.n - 1) s.last_value] })
    (commit_full : ∀ s : State, s.pc = .commit → s.n ≥ NMAX →
      P s { s with pc := .done, reads_cvr := s.reads_cvr + 1 })
    (commit : ∀ s : State, s.pc = .commit → s.n < NMAX →
      P s { s with
            pc := .outer
            reads_cvr := s.reads_cvr + 1
            trace := setTrace s.trace s.n
              (commitWord s.last_ticks (shl8 (env.cvr s.reads_cvr)) s.last_value)
            n := s.n + 1
            last_ticks := shl8 (env.cvr s.reads_cvr)
            last_value := s.new_value
            ticks_left := spend s.ticks_left
              (sub32 s.last_ticks (shl8 (env.cvr s.reads_cvr)) >>> 8)
            oob := s.oob || outside s.n
            log := s.log ++ [.commit s.n s.last_value
              (sub32 s.last_ticks (shl8 (env.cvr s.reads_cvr)) >>> 8)] })
    (done : ∀ s : State, s.pc = .done → P s s) :
    ∀ s : State, P s (step env s) := by
  intro s
  cases hpc : s.pc with
  | outer =>
      by_cases htl : s.ticks_left ≥ 0
      · have h := outer_go s hpc htl
        unfold step
        rw [hpc]
        simp only [htl, if_true]
        exact h
      · have h := outer_stop s hpc (by omega)
        unfold step
        rw [hpc]
        simp only [htl, if_false]
        exact h
  | inner =>
      by_cases hc : GetInput (env.portIN s.reads_in) = s.last_value ∧ s.ticks_left ≥ 0
      · by_cases hto : sub32 s.last_ticks (shl8 (env.cvr s.reads_cvr)) > 0x7fffffff
        · have htd : timeoutDetected env s := ⟨hpc, hc.1, hc.2, hto⟩
          rw [step_timeout env s htd]
          unfold timeoutWrite
          by_cases hnl : needsNewLong s.n s.trace s.last_value = true
          · rw [if_pos hnl]
            by_cases hge : s.n ≥ NMAX
            · rw [if_pos hge]
              exact refused s htd hnl hge
            · rw [if_neg hge]
              exact append s htd hnl (by omega)
          · rw [if_neg hnl]
            exact merge s htd (by simpa using hnl)
        · have h := inner_wait s hpc hc.1 hc.2 hto
          unfold step
          rw [hpc]
          simp only [hc, and_self, if_true]
          unfold innerBody
          simp only [hto, if_false]
          simp only [hc.1] at h
          exact h
      · have h := inner_exit s hpc hc
        unfold step
        rw [hpc]
        simp only [hc, if_false]
        exact h
  | commit =>
      by_cases hge : s.n ≥ NMAX
      · have h := commit_full s hpc hge
        unfold step commitBody
        rw [hpc]
        simp only [hge, if_true]
        exact h
      · have h := commit s hpc (by omega)
        unfold step commitBody
        rw [hpc]
        simp only [hge, if_false]
        exact h
  | done =>
      have h := done s hpc
      unfold step
      rw [hpc]
      exact h

theorem step_inv (env : Env) (s : State) (h : Inv s) : Inv (step env s) := by
  revert h
  apply step_cases env (fun s s1 => Inv s → Inv s1)
  all_goals
    intro s
    intros
    rename_i h
    obtain ⟨hn, ho⟩ := h
    simp only [Inv, ho, readOob, outside, Bool.false_or, Bool.or_false]
    have hN : NMAX = 10000 := rfl
    first
      | exact ⟨hn, trivial⟩
      | (simp; omega)

theorem run_inv (env : Env) (k : Nat) (s : State) (h : Inv s) : Inv (run env k s) := by
  induction k generalizing s with
  | zero => exact h
  | succ k ih => exact ih (step env s) (step_inv env s h)

theorem init_inv (env : Env) (tmax : Int) (core_clock : Nat) (trace0 : Nat → Nat) :
    Inv (init env tmax core_clock trace0) :=
  ⟨Nat.zero_le _, rfl⟩

theorem needsNewLong_zero (trace : Nat → Nat) (v : Nat) : needsNewLong 0 trace v = true := by
  unfold needsNewLong
  simp

theorem step_logBelow (env : Env) (s : State) (h : LogBelow s) : LogBelow (step env s) := by
  revert h
  apply step_cases env (fun s s1 => LogBelow s → LogBelow s1)
  case append =>
    intro s _ _ _ h ev hev
    rcases List.mem_append.mp hev with h1 | h1
    · exact Nat.lt_succ_of_lt (h ev h1)
    · rw [List.mem_singleton.mp h1]
      exact Nat.lt_succ_self _
  case merge =>
    intro s _ hnl h ev hev
    rcases List.mem_append.mp hev with h1 | h1
    · exact h ev h1
    · rw [List.mem_singleton.mp h1]
      have hn0 : s.n ≠ 0 := by
        intro h0
        rw [h0, needsNewLong_zero] at hnl
        cases hnl
      show s.n - 1 < s.n
      omega
  case commit =>
    intro s _ _ h ev hev
    rcases List.mem_append.mp hev with h1 | h1
    · exact Nat.lt_succ_of_lt (h ev h1)
    · rw [List.mem_singleton.mp h1]
      exact Nat.lt_succ_self _
  all_goals
    intro s
    intros
    rename_i h
    exact h

theorem run_logBelow (env : Env) (k : Nat) (s : State) (h : LogBelow s) :
    LogBelow (run env k s) := by
  induction k generalizing s with
  | zero => exact h
  | succ k ih => exact ih (step env s) (step_logBelow env s h)

/-- C4. Capacity invariant of `record()`: for every `tmax`, `core_clock`,
initial content of `trace[]` and sequence of input and timer readings, after
every number of steps `n <= NMAX`, no access to `trace[]` was outside
`[0, NMAX)` (the read of `trace[n-1]` is made only when `n != 0`, the writes
after the capacity test), every index the encoder wrote is below `n`, hence
below `NMAX`, and a returned value is at most `NMAX`. -/
theorem capacity_invariant (env : Env) (tmax : Int) (core_clock : Nat)
    (trace0 : Nat → Nat) (k : Nat) :
    (run env k (init env tmax core_clock trace0)).n ≤ NMAX ∧
    (run env k (init env tmax core_clock trace0)).oob = false ∧
    (∀ ev ∈ (run env k (init env tmax core_clock trace0)).log,
      ev.index < (run env k (init env tmax core_clock trace0)).n ∧ ev.index < NMAX) ∧
    (∀ r, record env tmax core_clock trace0 k = some r → r ≤ NMAX) := by
  have hinv := run_inv env k _ (init_inv env tmax core_clock trace0)
  have hlog := run_logBelow env k (init env tmax core_clock trace0)
    (fun ev hev => by cases hev)
  refine ⟨hinv.1, hinv.2, fun ev hev => ⟨hlog ev hev, lt_of_lt_of_le (hlog ev hev) hinv.1⟩, ?_⟩
  intro r hr
  unfold record at hr
  simp only at hr
  split at hr
  · cases hr
    exact hinv.1
  · cases hr

/-- Witness for C4: Scenario B returns 2 after seven steps. -/
theorem capacity_invariant_witness :
    record envB 200 120000000 (fun _ => 0) 7 = some 2 ∧ 2 ≤ NMAX :=
  ⟨by decide,
   (capacity_invariant envB 200 120000000 (fun _ => 0) 7).2.2.2 2 (by decide)⟩

/-! ## Runs -/

theorem run_add (env : Env) (a b : Nat) (s : State) :
    run env (a + b) s = run env b (run env a s) := by
  induction a generalizing s with
  | zero => simp [run]
  | succ a ih =>
      rw [Nat.succ_add]
      exact ih (step env s)

theorem run_one (env : Env) (s : State) : run env 1 s = step env s := rfl

theorem step_outer_go (env : Env) (s : State) (hpc : s.pc = .outer) (h : s.ticks_left ≥ 0) :
    step env s = { s with pc := .inner } := by
  unfold step
  rw [hpc]
  simp only [h, if_true]

theorem step_inner_exit (env : Env) (s : State) (hpc : s.pc = .inner)
    (h : ¬ (GetInput (env.portIN s.reads_in) = s.last_value ∧ s.ticks_left ≥ 0)) :
    step env s = { s with
      pc := .commit
      new_value := GetInput (env.portIN s.reads_in)
      reads_in := s.reads_in + 1 } := by
  unfold step
  rw [hpc]
  simp only [h, if_false]

theorem step_commit (env : Env) (s : State) (hpc : s.pc = .commit) (h : s.n < NMAX) :
    step env s = { s with
      pc := .outer
      reads_cvr := s.reads_cvr + 1
      trace := setTrace s.trace s.n
        (commitWord s.last_ticks (shl8 (env.cvr s.reads_cvr)) s.last_value)
      n := s.n + 1
      last_ticks := shl8 (env.cvr s.reads_cvr)
      last_value := s.new_value
      ticks_left := spend s.ticks_left
        (sub32 s.last_ticks (shl8 (env.cvr s.reads_cvr)) >>> 8)
      oob := s.oob || outside s.n
      log := s.log ++ [.commit s.n s.last_value
        (sub32 s.last_ticks (shl8 (env.cvr s.reads_cvr)) >>> 8)] } := by
  have hge : ¬ s.n ≥ NMAX := by omega
  unfold step commitBody
  rw [hpc]
  simp only [hge, if_false]

theorem step_commit_full (env : Env) (s : State) (hpc : s.pc = .commit) (h : s.n ≥ NMAX) :
    step env s = { s with pc := .done, reads_cvr := s.reads_cvr + 1 } := by
  unfold step commitBody
  rw [hpc]
  simp only [h, if_true]

theorem spend_zero (d : Nat) : spend 0 d = 0 := by
  unfold spend
  simp

theorem setTrace_same (t : Nat → Nat) (i w : Nat) : setTrace t i w i = w := by
  unfold setTrace
  simp

theorem setTrace_other (t : Nat → Nat) (i w j : Nat) (h : j ≠ i) : setTrace t i w j = t j := by
  unfold setTrace
  simp [h]

theorem shl8_mod (c : Nat) : shl8 c % 256 = 0 := by
  unfold shl8
  rw [Nat.shiftLeft_eq]
  omega

theorem sub32_mod (a b : Nat) (ha : a % 256 = 0) (hb : b % 256 = 0) : sub32 a b % 256 = 0 := by
  unfold sub32
  omega

theorem sub32_lt (a b : Nat) : sub32 a b < 2 ^ 32 := by
  unfold sub32
  omega

theorem commitWord_add (a b v : Nat) (ha : a % 256 = 0) (hb : b % 256 = 0) (hv : v < 256) :
    commitWord a b v = sub32 a b + v := by
  unfold commitWord
  rw [or_low _ _ (sub32_mod a b ha hb) hv]
  have h1 := sub32_lt a b
  have h2 := sub32_mod a b ha hb
  omega

theorem sampleOf_commitWord (a b v : Nat) (ha : a % 256 = 0) (hb : b % 256 = 0)
    (hv : v < 256) : sampleOf (commitWord a b v) = v := by
  rw [commitWord_add a b v ha hb hv]
  have h2 := sub32_mod a b ha hb
  unfold sampleOf
  omega

/-- One edge of an alternating input: three steps (outer test, inner test,
commit) lead from the state after `k` edges to the state after `k + 1`. -/
theorem edge_cycle (env : Env) (k : Nat) (s : State) (h : EdgeState env k s)
    (hk : k < NMAX) (hin : GetInput (env.portIN (k + 1)) = (k + 1) % 2) :
    EdgeState env (k + 1) (run env 3 s) := by
  obtain ⟨hpc, htl, hn, hlv, hri, hrc, hlt, _⟩ := h
  have h1 : step env s = { s with pc := .inner } :=
    step_outer_go env s hpc (by omega)
  have hne : ¬ (GetInput (env.portIN (step env s).reads_in) = (step env s).last_value ∧
      (step env s).ticks_left ≥ 0) := by
    rw [h1]
    show ¬ (GetInput (env.portIN s.reads_in) = s.last_value ∧ s.ticks_left ≥ 0)
    rw [hri, hin, hlv]
    omega
  have h2 := step_inner_exit env (step env s) (by rw [h1]) hne
  have h3 := step_commit env (step env (step env s)) (by rw [h2])
    (by rw [h2, h1]; show s.n < NMAX; omega)
  show EdgeState env (k + 1) (step env (step env (step env s)))
  rw [h3, h2, h1]
  refine ⟨rfl, ?_, ?_, ?_, ?_, ?_, ?_, ?_⟩
  · show spend s.ticks_left _ = 0
    rw [htl, spend_zero]
  · show s.n + 1 = k + 1
    rw [hn]
  · show GetInput (env.portIN s.reads_in) = (k + 1) % 2
    rw [hri, hin]
  · show s.reads_in + 1 = k + 1 + 1
    rw [hri]
  · show s.reads_cvr + 1 = k + 1 + 1
    rw [hrc]
  · show shl8 (env.cvr s.reads_cvr) = shl8 (env.cvr (k + 1))
    rw [hrc]
  · intro _
    show sampleOf (setTrace s.trace s.n
      (commitWord s.last_ticks (shl8 (env.cvr s.reads_cvr)) s.last_value) (k + 1 - 1)) = _
    rw [hn, hlv, hlt, Nat.add_sub_cancel, setTrace_same,
      sampleOf_commitWord _ _ _ (shl8_mod _) (shl8_mod _) (by omega)]

theorem edge_run (env : Env) (k : Nat) (s : State) (h : EdgeState env 0 s)
    (hk : k ≤ NMAX) (hin : ∀ j, j ≤ k → GetInput (env.portIN j) = j % 2) :
    EdgeState env k (run env (3 * k) s) := by
  induction k with
  | zero => exact h
  | succ k ih =>
      have h1 := ih (by omega) (fun j hj => hin j (by omega))
      have h2 := edge_cycle env k _ h1 (by omega) (hin (k + 1) (le_refl _))
      rw [← run_add] at h2
      exact h2

theorem getInput_shl (v : Nat) (hv : v < 256) : GetInput (v <<< 8) = v := by
  unfold GetInput
  rw [Nat.shiftLeft_eq, Nat.shiftRight_eq_div_pow, and_ff]
  omega

theorem init_edgeState (env : Env) (core_clock : Nat) (trace0 : Nat → Nat)
    (h0 : GetInput (env.portIN 0) = 0) :
    EdgeState env 0 (init env 0 core_clock trace0) := by
  refine ⟨rfl, ?_, rfl, h0, rfl, rfl, rfl, fun h => absurd rfl h⟩
  show (0 : Int) * _ = 0
  simp

theorem step_append (env : Env) (s : State) (htd : timeoutDetected env s)
    (hnl : needsNewLong s.n s.trace s.last_value = true) (hlt : s.n < NMAX) :
    step env s = { s with
      pc := .inner
      new_value := s.last_value
      reads_in := s.reads_in + 1
      reads_cvr := s.reads_cvr + 1
      n := s.n + 1
      trace := setTrace s.trace s.n ((0x80000100 ||| s.last_value) % 2 ^ 32)
      last_ticks := sub32 s.last_ticks 0x80000000
      ticks_left := spend s.ticks_left 0x800000
      oob := s.oob || readOob s.n || outside s.n
      log := s.log ++ [.timeoutAppend s.n s.last_value] } := by
  have hge : ¬ s.n ≥ NMAX := by omega
  rw [step_timeout env s htd]
  unfold timeoutWrite
  rw [if_pos hnl, if_neg hge]
  rfl

theorem step_merge (env : Env) (s : State) (htd : timeoutDetected env s)
    (hnl : needsNewLong s.n s.trace s.last_value = false) :
    step env s = { s with
      pc := .inner
      new_value := s.last_value
      reads_in := s.reads_in + 1
      reads_cvr := s.reads_cvr + 1
      trace := setTrace s.trace (s.n - 1) ((s.trace (s.n - 1) + 0x100) % 2 ^ 32)
      last_ticks := sub32 s.last_ticks 0x80000000
      ticks_left := spend s.ticks_left 0x800000
      oob := s.oob || readOob s.n || outside (s.n - 1)
      log := s.log ++ [.timeoutMerge (s.n - 1) s.last_value] } := by
  have hne : ¬ needsNewLong s.n s.trace s.last_value = true := by
    rw [hnl]
    simp
  rw [step_timeout env s htd]
  unfold timeoutWrite
  rw [if_neg hne]
  rfl

theorem step_refused (env : Env) (s : State) (htd : timeoutDetected env s)
    (hnl : needsNewLong s.n s.trace s.last_value = true) (hge : s.n ≥ NMAX) :
    step env s = { s with
      pc := .commit
      new_value := s.last_value
      reads_in := s.reads_in + 1
      reads_cvr := s.reads_cvr + 1
      oob := s.oob || readOob s.n } := by
  rw [step_timeout env s htd]
  unfold timeoutWrite
  rw [if_pos hnl, if_pos hge]

/-- After `NMAX - 1` edges, a timeout at the new level fills the buffer with
a long record, and the state after it is described by the lemma. -/
theorem timeout_after_edges (env : Env) (s0 : State) (hE : EdgeState env (NMAX - 1) s0)
    (hin : GetInput (env.portIN NMAX) = 1)
    (hto : sub32 (shl8 (env.cvr (NMAX - 1))) (shl8 (env.cvr NMAX)) > 0x7fffffff) :
    (run env 2 s0).pc = .inner ∧ (run env 2 s0).n = NMAX ∧
    (run env 2 s0).trace (NMAX - 1) = 0x80000101 ∧
    (run env 2 s0).last_value = 1 ∧ (run env 2 s0).ticks_left = 0 ∧
    (run env 2 s0).reads_in = NMAX + 1 ∧ (run env 2 s0).reads_cvr = NMAX + 1 ∧
    (run env 2 s0).last_ticks = sub32 (shl8 (env.cvr (NMAX - 1))) 0x80000000 := by
  obtain ⟨hpc, htl, hn, hlv, hri, hrc, hlt, hsam⟩ := hE
  have hlv1 : s0.last_value = 1 := hlv
  have hsam1 : sampleOf (s0.trace (NMAX - 1 - 1)) = 0 := hsam (by decide)
  have h1 : step env s0 = { s0 with pc := .inner } :=
    step_outer_go env s0 hpc (by omega)
  have ha : GetInput (env.portIN s0.reads_in) = s0.last_value := by
    rw [hri, hlv1]
    exact hin
  have hc : sub32 s0.last_ticks (shl8 (env.cvr s0.reads_cvr)) > 0x7fffffff := by
    rw [hlt, hrc]
    exact hto
  have htd1 : timeoutDetected env (step env s0) := by
    rw [h1]
    exact ⟨rfl, ha, le_of_eq htl.symm, hc⟩
  have hnl : needsNewLong s0.n s0.trace s0.last_value = true := by
    rw [hn, hlv1, needsNewLong_iff _ _ _ (by decide)]
    right
    left
    intro hh
    rw [hsam1] at hh
    exact absurd hh.2 (by decide)
  have hnl1 : needsNewLong (step env s0).n (step env s0).trace (step env s0).last_value
      = true := by
    rw [h1]
    exact hnl
  have hlt1 : (step env s0).n < NMAX := by
    rw [h1]
    show s0.n < NMAX
    rw [hn]
    decide
  have h2 := step_append env (step env s0) htd1 hnl1 hlt1
  have hrun : run env 2 s0 = step env (step env s0) := rfl
  rw [hrun, h2, h1]
  refine ⟨rfl, ?_, ?_, hlv1, ?_, ?_, ?_, ?_⟩
  · show s0.n + 1 = NMAX
    rw [hn]
    decide
  · show setTrace s0.trace s0.n ((0x80000100 ||| s0.last_value) % 2 ^ 32) (NMAX - 1) = _
    rw [hn, hlv1]
    exact setTrace_same _ _ _
  · show spend s0.ticks_left 0x800000 = 0
    rw [htl, spend_zero]
  · show s0.reads_in + 1 = NMAX + 1
    rw [hri]
    decide
  · show s0.reads_cvr + 1 = NMAX + 1
    rw [hrc]
    decide
  · show sub32 s0.last_ticks 0x80000000 = _
    rw [hlt]

/-- The run on `envFull` after `NMAX - 1` edges and the first timeout: the
buffer is full, its last word is the long record `0x80000101`, and the next
step is again a timeout at level 1. -/
theorem envFull_state :
    (run envFull 29999 (init envFull 0 120000000 (fun _ => 0))).n = NMAX ∧
    (run envFull 29999 (init envFull 0 120000000 (fun _ => 0))).trace (NMAX - 1)
      = 0x80000101 ∧
    (run envFull 29999 (init envFull 0 120000000 (fun _ => 0))).last_value = 1 ∧
    timeoutDetected envFull (run envFull 29999 (init envFull 0 120000000 (fun _ => 0))) := by
  have hin : ∀ j, j ≤ NMAX - 1 → GetInput (envFull.portIN j) = j % 2 := by
    intro j hj
    have hlt : j < NMAX := by unfold NMAX at *; omega
    show GetInput (if j < NMAX then (j % 2) <<< 8 else 0x0100) = j % 2
    rw [if_pos hlt, getInput_shl _ (by omega)]
  have hE := edge_run envFull (NMAX - 1) (init envFull 0 120000000 (fun _ => 0))
    (init_edgeState envFull _ _ (by decide)) (by decide) hin
  have h := timeout_after_edges envFull _ hE (by decide) (by decide)
  have e : 3 * (NMAX - 1) + 2 = 29999 := by decide
  rw [← run_add, e] at h
  obtain ⟨h1, h2, h3, h4, h5, h6, h7, h8⟩ := h
  refine ⟨h2, h3, h4, h1, ?_, ?_, ?_⟩
  · rw [h6, h4]
    show GetInput (envFull.portIN (10000 + 1)) = 1
    decide
  · rw [h5]
  · rw [h8, h7]
    show sub32 (sub32 (shl8 (envFull.cvr 9999)) 0x80000000) (shl8 (envFull.cvr (10000 + 1)))
      > 0x7fffffff
    decide

/-! ## C5: the full buffer -/

/-- What one step does to a full buffer: `n` stays `NMAX`, and either
`trace` is untouched or the step is a timeout in the merge case, which
increments `trace[NMAX-1]`. -/
theorem step_full (env : Env) (s : State) (hn : s.n = NMAX) (hv : s.last_value < 256) :
    (step env s).n = NMAX ∧ (step env s).last_value < 256 ∧
    ((step env s).trace = s.trace ∨
     (timeoutDetected env s ∧ ¬ appendCase s.n s.trace s.last_value ∧
      (step env s).trace
        = setTrace s.trace (NMAX - 1) ((s.trace (NMAX - 1) + 0x100) % 2 ^ 32))) := by
  revert hn hv
  apply step_cases env (fun s s1 => s.n = NMAX → s.last_value < 256 →
    s1.n = NMAX ∧ s1.last_value < 256 ∧ (s1.trace = s.trace ∨
     (timeoutDetected env s ∧ ¬ appendCase s.n s.trace s.last_value ∧
      s1.trace = setTrace s.trace (NMAX - 1) ((s.trace (NMAX - 1) + 0x100) % 2 ^ 32))))
  case append =>
    intro s _ _ hlt hn _
    omega
  case commit =>
    intro s _ hlt hn _
    omega
  case merge =>
    intro s htd hnl hn hv
    refine ⟨hn, hv, Or.inr ⟨htd, ?_, ?_⟩⟩
    · intro hc
      rw [(needsNewLong_iff _ _ _ hv).mpr hc] at hnl
      cases hnl
    · show setTrace s.trace (s.n - 1) ((s.trace (s.n - 1) + 0x100) % 2 ^ 32) = _
      rw [hn]
  all_goals
    intro s
    intros
    rename_i hn hv
    exact ⟨hn, hv, Or.inl rfl⟩

theorem run_full (env : Env) (k : Nat) (s : State) (hn : s.n = NMAX)
    (hv : s.last_value < 256) :
    (run env k s).n = NMAX ∧ ∀ i, i ≠ NMAX - 1 → (run env k s).trace i = s.trace i := by
  induction k generalizing s with
  | zero => exact ⟨hn, fun _ _ => rfl⟩
  | succ k ih =>
      obtain ⟨h1, h2, h3⟩ := step_full env s hn hv
      obtain ⟨h4, h5⟩ := ih (step env s) h1 h2
      refine ⟨h4, fun i hi => ?_⟩
      show (run env k (step env s)).trace i = s.trace i
      rw [h5 i hi]
      rcases h3 with h3 | ⟨_, _, h3⟩
      · rw [h3]
      · rw [h3, setTrace_other _ _ _ _ hi]

/-- C5 (counterexample). On `envFull` the buffer is full after 29999 steps
(`n = NMAX`, last word `0x80000101`), and the next step, a timeout, changes
`trace[NMAX-1]` to `0x80000201`. -/
theorem full_buffer_timeout_still_merges :
    (run envFull 29999 (init envFull 0 120000000 (fun _ => 0))).n = NMAX ∧
    (run envFull 29999 (init envFull 0 120000000 (fun _ => 0))).trace (NMAX - 1)
      = 0x80000101 ∧
    (step envFull (run envFull 29999 (init envFull 0 120000000 (fun _ => 0)))).trace
      (NMAX - 1) = 0x80000201 ∧
    (step envFull (run envFull 29999 (init envFull 0 120000000 (fun _ => 0)))).trace
      (NMAX - 1) ≠
      (run envFull 29999 (init envFull 0 120000000 (fun _ => 0))).trace (NMAX - 1) := by
  obtain ⟨hn, htr, hlv, htd⟩ := envFull_state
  generalize run envFull 29999 (init envFull 0 120000000 (fun _ => 0)) = s at hn htr hlv htd ⊢
  have hnl : needsNewLong s.n s.trace s.last_value = false := by
    rw [hn, hlv]
    unfold needsNewLong
    rw [htr]
    decide
  have h := step_merge envFull s htd hnl
  have h2 : (step envFull s).trace (NMAX - 1) = 0x80000201 := by
    rw [h]
    show setTrace s.trace (s.n - 1) ((s.trace (s.n - 1) + 0x100) % 2 ^ 32) (NMAX - 1) = _
    rw [hn, setTrace_same, htr]
    decide
  refine ⟨hn, htr, h2, ?_⟩
  rw [h2, htr]
  decide

/-- C5 (amended). Once `n = NMAX`, no later step changes `n` or any element
other than `trace[NMAX-1]`; a step that is not a timeout in the merge case
(an edge, a refused append, a loop test) leaves all of `trace` unchanged, the
commit step ends the session, and a timeout in the merge case replaces
`trace[NMAX-1]` by that word plus `0x100`. -/
theorem full_buffer_only_merges (env : Env) (s : State) (hn : s.n = NMAX)
    (hv : s.last_value < 256) (k : Nat) :
    (run env k s).n = NMAX ∧
    (∀ i, i ≠ NMAX - 1 → (run env k s).trace i = s.trace i) ∧
    ((step env s).trace = s.trace ∨
     (timeoutDetected env s ∧ ¬ appendCase s.n s.trace s.last_value ∧
      (step env s).trace
        = setTrace s.trace (NMAX - 1) ((s.trace (NMAX - 1) + 0x100) % 2 ^ 32))) ∧
    (s.pc = .commit → (step env s).trace = s.trace ∧ (step env s).pc = .done) ∧
    (timeoutDetected env s → appendCase s.n s.trace s.last_value →
      (step env s).trace = s.trace ∧ (step env s).pc = .commit) := by
  obtain ⟨h1, h2⟩ := run_full env k s hn hv
  refine ⟨h1, h2, (step_full env s hn hv).2.2, ?_, ?_⟩
  · intro hpc
    rw [step_commit_full env s hpc (by omega)]
    exact ⟨rfl, rfl⟩
  · intro htd hc
    rw [step_refused env s htd ((needsNewLong_iff _ _ _ hv).mpr hc) (by omega)]
    exact ⟨rfl, rfl⟩

/-- Witness for C5 (amended): a full buffer at the commit point. -/
theorem full_buffer_only_merges_witness :
    (step envA { pc := .commit, last_value := 1, last_ticks := 0, new_value := 2,
                 ticks_left := 0, n := NMAX, trace := fun _ => 0x501, reads_in := 2,
                 reads_cvr := 2, oob := false, log := [] }).pc = .done :=
  ((full_buffer_only_merges envA
    { pc := .commit, last_value := 1, last_ticks := 0, new_value := 2,
      ticks_left := 0, n := NMAX, trace := fun _ => 0x501, reads_in := 2,
      reads_cvr := 2, oob := false, log := [] } rfl (by decide) 0).2.2.2.1 rfl).2

/-! ## C6: the unbounded session -/

theorem run_preserves (env : Env) (P : State → Prop)
    (hstep : ∀ s, P s → P (step env s)) (k : Nat) (s : State) (h : P s) :
    P (run env k s) := by
  induction k generalizing s with
  | zero => exact h
  | succ k ih => exact ih (step env s) (hstep s h)

/-- With a zero budget `ticks_left` stays 0, and the only way to return is
the capacity test of the commit path. -/
theorem step_unbounded (env : Env) (s : State)
    (h : s.ticks_left = 0 ∧ (s.pc = .done → s.n ≥ NMAX)) :
    (step env s).ticks_left = 0 ∧ ((step env s).pc = .done → (step env s).n ≥ NMAX) := by
  revert h
  apply step_cases env (fun s s1 => (s.ticks_left = 0 ∧ (s.pc = .done → s.n ≥ NMAX)) →
    (s1.ticks_left = 0 ∧ (s1.pc = .done → s1.n ≥ NMAX)))
  case outer_go =>
    intro s _ _ h
    exact ⟨h.1, fun hd => by cases hd⟩
  case outer_stop =>
    intro s _ hneg h
    have h0 := h.1
    omega
  case inner_exit =>
    intro s _ _ h
    exact ⟨h.1, fun hd => by cases hd⟩
  case inner_wait =>
    intro s _ _ _ _ h
    exact ⟨h.1, fun hd => by cases hd⟩
  case refused =>
    intro s _ _ _ h
    exact ⟨h.1, fun hd => by cases hd⟩
  case append =>
    intro s _ _ _ h
    refine ⟨?_, fun hd => by cases hd⟩
    show spend s.ticks_left 0x800000 = 0
    rw [h.1, spend_zero]
  case merge =>
    intro s _ _ h
    refine ⟨?_, fun hd => by cases hd⟩
    show spend s.ticks_left 0x800000 = 0
    rw [h.1, spend_zero]
  case commit_full =>
    intro s _ hge h
    exact ⟨h.1, fun _ => hge⟩
  case commit =>
    intro s _ _ h
    refine ⟨?_, fun hd => by cases hd⟩
    show spend s.ticks_left _ = 0
    rw [h.1, spend_zero]
  case done =>
    intro s _ h
    exact h

theorem init_unbounded (env : Env) (core_clock : Nat) (trace0 : Nat → Nat) :
    (init env 0 core_clock trace0).ticks_left = 0 ∧
    ((init env 0 core_clock trace0).pc = .done → (init env 0 core_clock trace0).n ≥ NMAX) := by
  refine ⟨?_, fun hd => by cases hd⟩
  show (0 : Int) * _ = 0
  simp

/-- After `NMAX` edges the next edge finds the buffer full and `record()`
returns. -/
theorem return_after_edges (env : Env) (s0 : State) (hE : EdgeState env NMAX s0)
    (hin : GetInput (env.portIN (NMAX + 1)) ≠ NMAX % 2) :
    (run env 3 s0).pc = .done ∧ (run env 3 s0).n = NMAX := by
  obtain ⟨hpc, htl, hn, hlv, hri, hrc, hlt, _⟩ := hE
  have h1 : step env s0 = { s0 with pc := .inner } :=
    step_outer_go env s0 hpc (by omega)
  have hne : ¬ (GetInput (env.portIN (step env s0).reads_in) = (step env s0).last_value ∧
      (step env s0).ticks_left ≥ 0) := by
    rw [h1]
    show ¬ (GetInput (env.portIN s0.reads_in) = s0.last_value ∧ s0.ticks_left ≥ 0)
    rw [hri, hlv]
    exact fun h => hin h.1
  have h2 := step_inner_exit env (step env s0) (by rw [h1]) hne
  have h3 := step_commit_full env (step env (step env s0)) (by rw [h2])
    (by rw [h2, h1]; show s0.n ≥ NMAX; omega)
  have hrun : run env 3 s0 = step env (step env (step env s0)) := rfl
  rw [hrun, h3, h2, h1]
  exact ⟨rfl, hn⟩

theorem envEdges_returns :
    (run envEdges 30003 (init envEdges 0 120000000 (fun _ => 0))).pc = .done ∧
    (run envEdges 30003 (init envEdges 0 120000000 (fun _ => 0))).n = NMAX := by
  have hin : ∀ j, j ≤ NMAX → GetInput (envEdges.portIN j) = j % 2 := by
    intro j _
    show GetInput ((j % 2) <<< 8) = j % 2
    rw [getInput_shl _ (by omega)]
  have hE := edge_run envEdges NMAX (init envEdges 0 120000000 (fun _ => 0))
    (init_edgeState envEdges _ _ (by decide)) (le_refl _) hin
  have h := return_after_edges envEdges _ hE (by decide)
  have e : 3 * NMAX + 3 = 30003 := by decide
  rw [← run_add, e] at h
  exact h

/-- C6. Unbounded session: for `tmax = 0`, any `core_clock`, any initial
buffer and any sequence of input and timer readings, `ticks_left` is 0 after
every number of steps, so the outer loop never stops on the budget; whenever
`record(0)` has returned, `n = NMAX`, and the value returned is `NMAX`. -/
theorem unbounded_session_returns_NMAX (env : Env) (core_clock : Nat)
    (trace0 : Nat → Nat) (k : Nat) :
    (run env k (init env 0 core_clock trace0)).ticks_left = 0 ∧
    ((run env k (init env 0 core_clock trace0)).pc = .done →
      (run env k (init env 0 core_clock trace0)).n = NMAX) ∧
    (∀ r, record env 0 core_clock trace0 k = some r → r = NMAX) := by
  have hu := run_preserves env _ (step_unbounded env) k _
    (init_unbounded env core_clock trace0)
  have hinv := run_inv env k _ (init_inv env 0 core_clock trace0)
  have hd : (run env k (init env 0 core_clock trace0)).pc = .done →
      (run env k (init env 0 core_clock trace0)).n = NMAX :=
    fun h => le_antisymm hinv.1 (hu.2 h)
  refine ⟨hu.1, hd, ?_⟩
  intro r hr
  unfold record at hr
  simp only at hr
  split at hr
  · rename_i hpc
    cases hr
    exact hd hpc
  · cases hr

/-- Witness for C6: with an input that changes at every read, `record(0)`
returns after 30003 steps, with `n = NMAX`. -/
theorem unbounded_session_returns_NMAX_witness :
    (run envEdges 30003 (init envEdges 0 120000000 (fun _ => 0))).pc = .done ∧
    (run envEdges 30003 (init envEdges 0 120000000 (fun _ => 0))).n = NMAX :=
  ⟨envEdges_returns.1,
   (unbounded_session_returns_NMAX envEdges 120000000 (fun _ => 0) 30003).2.1
     envEdges_returns.1⟩

/-! ## C7: the minimum recording time -/

theorem consumed_append (log : List Event) (ev : Event) :
    consumed (log ++ [ev]) = consumed log + ev.ticks := by
  unfold consumed
  simp

theorem spend_budget (B tl : Int) (c d : Nat) (h0 : tl ≠ 0)
    (h : tl = B - (c : Int) ∨ (tl = B - (c : Int) - 1 ∧ B ≤ (c : Int))) :
    spend tl d ≠ 0 ∧
    (spend tl d = B - ((c + d : Nat) : Int) ∨
      (spend tl d = B - ((c + d : Nat) : Int) - 1 ∧ B ≤ ((c + d : Nat) : Int))) := by
  unfold spend
  rw [if_pos h0]
  by_cases hz : tl - (d : Int) ≠ 0
  · rw [if_pos hz]
    push_cast
    omega
  · rw [if_neg hz]
    push_cast
    omega

theorem step_budget (env : Env) (B : Int) (s : State) (h : Budget B s) :
    Budget B (step env s) := by
  revert h
  apply step_cases env (fun s s1 => Budget B s → Budget B s1)
  case outer_go =>
    intro s _ _ h
    exact ⟨h.1, h.2.1, fun hd => by cases hd⟩
  case outer_stop =>
    intro s _ hneg h
    exact ⟨h.1, h.2.1, fun _ => Or.inr hneg⟩
  case inner_exit =>
    intro s _ _ h
    exact ⟨h.1, h.2.1, fun hd => by cases hd⟩
  case inner_wait =>
    intro s _ _ _ _ h
    exact ⟨h.1, h.2.1, fun hd => by cases hd⟩
  case refused =>
    intro s _ _ _ h
    exact ⟨h.1, h.2.1, fun hd => by cases hd⟩
  case append =>
    intro s _ _ _ h
    have hs := spend_budget B s.ticks_left (consumed s.log) 0x800000 h.1 h.2.1
    refine ⟨hs.1, ?_, fun hd => by cases hd⟩
    show _ = B - ((consumed (s.log ++ [Event.timeoutAppend s.n s.last_value]) : Nat) : Int) ∨ _
    rw [consumed_append]
    exact hs.2
  case merge =>
    intro s _ _ h
    have hs := spend_budget B s.ticks_left (consumed s.log) 0x800000 h.1 h.2.1
    refine ⟨hs.1, ?_, fun hd => by cases hd⟩
    show _ = B - ((consumed (s.log ++ [Event.timeoutMerge (s.n - 1) s.last_value]) : Nat)
      : Int) ∨ _
    rw [consumed_append]
    exact hs.2
  case commit_full =>
    intro s _ hge h
    exact ⟨h.1, h.2.1, fun _ => Or.inl hge⟩
  case commit =>
    intro s _ _ h
    have hs := spend_budget B s.ticks_left (consumed s.log)
      (sub32 s.last_ticks (shl8 (env.cvr s.reads_cvr)) >>> 8) h.1 h.2.1
    refine ⟨hs.1, ?_, fun hd => by cases hd⟩
    show _ = B - ((consumed (s.log ++ [Event.commit s.n s.last_value
      (sub32 s.last_ticks (shl8 (env.cvr s.reads_cvr)) >>> 8)]) : Nat) : Int) ∨ _
    rw [consumed_append]
    exact hs.2
  case done =>
    intro s _ h
    exact h

theorem init_budget (env : Env) (tmax : Int) (core_clock : Nat) (trace0 : Nat → Nat)
    (ht : tmax > 0) (hc : core_clock ≥ 1000) (hc32 : core_clock < 2 ^ 32) :
    Budget (tmax * ((core_clock / 1000 : Nat) : Int)) (init env tmax core_clock trace0) := by
  have hmod : core_clock % 2 ^ 32 = core_clock := Nat.mod_eq_of_lt hc32
  have hpos : (0 : Int) < ((core_clock / 1000 : Nat) : Int) := by
    have : 1 ≤ core_clock / 1000 := by omega
    omega
  have hB : tmax * ((core_clock / 1000 : Nat) : Int) > 0 := Int.mul_pos ht hpos
  refine ⟨?_, Or.inl ?_, fun hd => by cases hd⟩
  · show tmax * ((core_clock % 2 ^ 32 / 1000 : Nat) : Int) ≠ 0
    rw [hmod]
    omega
  · show tmax * ((core_clock % 2 ^ 32 / 1000 : Nat) : Int) = _ - ((consumed [] : Nat) : Int)
    rw [hmod]
    simp [consumed]

/-- C7. Minimum recording time: for `tmax > 0` and a 32-bit
`core_clock >= 1000`, with `B = tmax * floor(core_clock / 1000)`, whenever
`record(tmax)` has returned with `n < NMAX` the ticks consumed (`2^23` per
processed timeout plus the elapsed ticks of every commit-path word) are at
least `B`; while the consumed ticks are below `B` and the buffer is not full
the session has not terminated. -/
theorem minimum_recording_time (env : Env) (tmax : Int) (core_clock : Nat)
    (trace0 : Nat → Nat) (k : Nat)
    (ht : tmax > 0) (hc : core_clock ≥ 1000) (hc32 : core_clock < 2 ^ 32) :
    ((run env k (init env tmax core_clock trace0)).pc = .done →
      (run env k (init env tmax core_clock trace0)).n < NMAX →
      tmax * ((core_clock / 1000 : Nat) : Int)
        ≤ (consumed (run env k (init env tmax core_clock trace0)).log : Int)) ∧
    ((consumed (run env k (init env tmax core_clock trace0)).log : Int)
        < tmax * ((core_clock / 1000 : Nat) : Int) →
      (run env k (init env tmax core_clock trace0)).n < NMAX →
      (run env k (init env tmax core_clock trace0)).pc ≠ .done) := by
  have hb := run_preserves env _ (step_budget env _) k _
    (init_budget env tmax core_clock trace0 ht hc hc32)
  generalize run env k (init env tmax core_clock trace0) = s at hb ⊢
  obtain ⟨_, h2, h3⟩ := hb
  have key : s.pc = .done → s.n < NMAX →
      tmax * ((core_clock / 1000 : Nat) : Int) ≤ (consumed s.log : Int) := by
    intro hd hn
    rcases h3 hd with h | h
    · omega
    · rcases h2 with h2 | h2
      · omega
      · exact h2.2
  refine ⟨key, fun hlt hn hd => ?_⟩
  have := key hd hn
  omega

/-- Witness for C7: Scenario B (`tmax = 200` ms at 120 MHz, budget 24000000
ticks) returns with `n = 2` after consuming `3 * 2^23 + 100` ticks. -/
theorem minimum_recording_time_witness :
    (run envB 7 (init envB 200 120000000 (fun _ => 0))).pc = .done ∧
    (run envB 7 (init envB 200 120000000 (fun _ => 0))).n < NMAX ∧
    consumed (run envB 7 (init envB 200 120000000 (fun _ => 0))).log = 3 * 2 ^ 23 + 100 ∧
    (200 : Int) * ((120000000 / 1000 : Nat) : Int)
      ≤ (consumed (run envB 7 (init envB 200 120000000 (fun _ => 0))).log : Int) :=
  ⟨by decide, by decide, by decide,
   (minimum_recording_time envB 200 120000000 (fun _ => 0) 7 (by decide) (by decide)
     (by decide)).1 (by decide) (by decide)⟩

/-! ## C8: decoding the buffer -/

theorem getInput_lt (x : Nat) : GetInput x < 256 := by
  unfold GetInput
  rw [and_ff]
  omega

theorem decode_setTrace_ge (t : Nat → Nat) (i w n : Nat) (h : n ≤ i) :
    decode (setTrace t i w) n = decode t n := by
  induction n with
  | zero => rfl
  | succ n ih =>
      show decode (setTrace t i w) n ++ decodeWord (setTrace t i w n) = _
      rw [ih (by omega), setTrace_other _ _ _ _ (by omega)]
      rfl

theorem decode_succ_set (t : Nat → Nat) (n w : Nat) :
    decode (setTrace t n w) (n + 1) = decode t n ++ decodeWord w := by
  show decode (setTrace t n w) n ++ decodeWord (setTrace t n w n) = _
  rw [decode_setTrace_ge _ _ _ _ (le_refl _), setTrace_same]

theorem longWord_fields (v : Nat) (hv : v < 256) :
    fmtBit ((0x80000100 ||| v) % 2 ^ 32) = 1 ∧ countOf ((0x80000100 ||| v) % 2 ^ 32) = 1 ∧
    sampleOf ((0x80000100 ||| v) % 2 ^ 32) = v := by
  rw [or_low _ _ (by norm_num) hv]
  unfold fmtBit countOf sampleOf
  omega

theorem decodeWord_long (v : Nat) (hv : v < 256) :
    decodeWord ((0x80000100 ||| v) % 2 ^ 32) = [Obs.unit v] := by
  obtain ⟨h1, h2, h3⟩ := longWord_fields v hv
  unfold decodeWord
  rw [if_pos h1, h2, h3]
  rfl

theorem merged_fields (w v : Nat) (hf : fmtBit w = 1) (hs : sampleOf w = v)
    (hc : countOf w ≠ 2 ^ 23 - 1) :
    fmtBit ((w + 0x100) % 2 ^ 32) = 1 ∧ countOf ((w + 0x100) % 2 ^ 32) = countOf w + 1 ∧
    sampleOf ((w + 0x100) % 2 ^ 32) = v := by
  unfold fmtBit countOf sampleOf at *
  omega

theorem decodeWord_merged (w v : Nat) (hf : fmtBit w = 1) (hs : sampleOf w = v)
    (hc : countOf w ≠ 2 ^ 23 - 1) :
    decodeWord ((w + 0x100) % 2 ^ 32) = decodeWord w ++ [Obs.unit v] := by
  obtain ⟨h1, h2, h3⟩ := merged_fields w v hf hs hc
  unfold decodeWord
  rw [if_pos h1, if_pos hf, h2, h3, hs, List.replicate_succ']

theorem shortWord_fields (a b v : Nat) (ha : a % 256 = 0) (hb : b % 256 = 0) (hv : v < 256)
    (he : sub32 a b >>> 8 ≤ 2 ^ 23 - 1) :
    fmtBit (commitWord a b v) = 0 ∧ countOf (commitWord a b v) = sub32 a b >>> 8 ∧
    sampleOf (commitWord a b v) = v := by
  rw [commitWord_add a b v ha hb hv]
  rw [Nat.shiftRight_eq_div_pow] at *
  have h2 := sub32_mod a b ha hb
  unfold fmtBit countOf sampleOf
  omega

theorem decodeWord_short (a b v : Nat) (ha : a % 256 = 0) (hb : b % 256 = 0) (hv : v < 256)
    (he : sub32 a b >>> 8 ≤ 2 ^ 23 - 1) :
    decodeWord (commitWord a b v) = [Obs.interval v (sub32 a b >>> 8)] := by
  obtain ⟨h1, h2, h3⟩ := shortWord_fields a b v ha hb hv he
  have h0 : ¬ fmtBit (commitWord a b v) = 1 := by omega
  unfold decodeWord
  rw [if_neg h0, h2, h3]

theorem shortCommits_earlier (log : List Event) (ev : Event) (h : ShortCommits (log ++ [ev])) :
    ShortCommits log :=
  fun i lv e hm => h i lv e (List.mem_append.mpr (Or.inl hm))

theorem obsTicks_append (a b : List Obs) : obsTicks (a ++ b) = obsTicks a + obsTicks b := by
  unfold obsTicks
  simp

theorem obsTicks_decodeWord (w : Nat) : obsTicks (decodeWord w) = duration w := by
  unfold decodeWord duration obsTicks
  split
  · simp [Obs.ticks]
  · simp [Obs.ticks]

theorem obsTicks_decode (t : Nat → Nat) (n : Nat) :
    obsTicks (decode t n) = totalDuration t n := by
  induction n with
  | zero => rfl
  | succ n ih =>
      show obsTicks (decode t n ++ decodeWord (t n)) = totalDuration t n + duration (t n)
      rw [obsTicks_append, ih, obsTicks_decodeWord]

theorem obsTicks_events (log : List Event) : obsTicks (log.map Event.obs) = consumed log := by
  unfold obsTicks consumed
  rw [List.map_map]
  congr 1
  apply List.map_congr_left
  intro ev _
  cases ev <;> simp [Event.obs, Obs.ticks, Event.ticks]

theorem step_roundTrip (env : Env) (s : State) (h : RoundTrip s) :
    RoundTrip (step env s) := by
  revert h
  apply step_cases env (fun s s1 => RoundTrip s → RoundTrip s1)
  case outer_go =>
    intro s _ _ h
    exact h
  case outer_stop =>
    intro s _ _ h
    exact h
  case inner_exit =>
    intro s _ _ h
    exact ⟨h.1, getInput_lt _, h.2.2.1, h.2.2.2⟩
  case inner_wait =>
    intro s _ _ _ _ h
    exact ⟨h.1, h.1, h.2.2.1, h.2.2.2⟩
  case refused =>
    intro s _ _ _ h
    exact ⟨h.1, h.1, h.2.2.1, h.2.2.2⟩
  case commit_full =>
    intro s _ _ h
    exact h
  case done =>
    intro s _ h
    exact h
  case append =>
    intro s _ _ _ h
    obtain ⟨hv, _, hlt, hrt⟩ := h
    refine ⟨hv, hv, sub32_mod _ _ hlt (by norm_num), ?_⟩
    intro hsc
    obtain ⟨hd, hlast, hadj⟩ := hrt (shortCommits_earlier _ _ hsc)
    obtain ⟨hf, _, hsam⟩ := longWord_fields s.last_value hv
    refine ⟨?_, ?_, ?_⟩
    · show decode (setTrace s.trace s.n ((0x80000100 ||| s.last_value) % 2 ^ 32)) (s.n + 1)
        = (s.log ++ [Event.timeoutAppend s.n s.last_value]).map Event.obs
      rw [decode_succ_set, hd, decodeWord_long _ hv, List.map_append]
      rfl
    · intro _ _
      show sampleOf (setTrace s.trace s.n ((0x80000100 ||| s.last_value) % 2 ^ 32)
        (s.n + 1 - 1)) = s.last_value
      rw [Nat.add_sub_cancel, setTrace_same, hsam]
    · intro i hi
      show fmtBit (setTrace s.trace s.n ((0x80000100 ||| s.last_value) % 2 ^ 32) i) = 1 →
        sampleOf (setTrace s.trace s.n ((0x80000100 ||| s.last_value) % 2 ^ 32) (i + 1))
          = sampleOf (setTrace s.trace s.n ((0x80000100 ||| s.last_value) % 2 ^ 32) i)
      have hi' : i + 1 < s.n + 1 := hi
      rw [setTrace_other _ _ _ i (by omega)]
      by_cases hin : i + 1 = s.n
      · rw [hin, setTrace_same, hsam]
        intro hfi
        have hn0 : s.n ≠ 0 := by omega
        have hidx : i = s.n - 1 := by omega
        rw [hidx] at hfi ⊢
        exact (hlast hn0 hfi).symm
      · rw [setTrace_other _ _ _ (i + 1) hin]
        exact hadj i (by omega)
  case merge =>
    intro s _ hnl h
    obtain ⟨hv, _, hlt, hrt⟩ := h
    refine ⟨hv, hv, sub32_mod _ _ hlt (by norm_num), ?_⟩
    intro hsc
    obtain ⟨hd, hlast, hadj⟩ := hrt (shortCommits_earlier _ _ hsc)
    have hna : ¬ appendCase s.n s.trace s.last_value := by
      intro hc
      rw [(needsNewLong_iff _ _ _ hv).mpr hc] at hnl
      cases hnl
    unfold appendCase at hna
    have hn0 : s.n ≠ 0 := fun h0 => hna (Or.inl h0)
    have hfs : fmtBit (s.trace (s.n - 1)) = 1 ∧ sampleOf (s.trace (s.n - 1)) = s.last_value := by
      by_contra hc
      exact hna (Or.inr (Or.inl hc))
    have hcnt : countOf (s.trace (s.n - 1)) ≠ 2 ^ 23 - 1 := fun hc => hna (Or.inr (Or.inr hc))
    obtain ⟨hf', _, hs'⟩ := merged_fields _ _ hfs.1 hfs.2 hcnt
    obtain ⟨m, hm⟩ : ∃ m, s.n = m + 1 := ⟨s.n - 1, by omega⟩
    have hm1 : s.n - 1 = m := by omega
    rw [hm1] at hfs hcnt hf' hs'
    refine ⟨?_, ?_, ?_⟩
    · show decode (setTrace s.trace (s.n - 1) ((s.trace (s.n - 1) + 0x100) % 2 ^ 32)) s.n
        = (s.log ++ [Event.timeoutMerge (s.n - 1) s.last_value]).map Event.obs
      rw [hm1, hm, decode_succ_set, decodeWord_merged _ _ hfs.1 hfs.2 hcnt, List.map_append,
        ← hd, hm, ← List.append_assoc]
      rfl
    · intro _ _
      show sampleOf (setTrace s.trace (s.n - 1) ((s.trace (s.n - 1) + 0x100) % 2 ^ 32)
        (s.n - 1)) = s.last_value
      rw [hm1, setTrace_same, hs']
    · intro i hi
      show fmtBit (setTrace s.trace (s.n - 1) ((s.trace (s.n - 1) + 0x100) % 2 ^ 32) i) = 1 →
        sampleOf (setTrace s.trace (s.n - 1) ((s.trace (s.n - 1) + 0x100) % 2 ^ 32) (i + 1))
          = sampleOf (setTrace s.trace (s.n - 1) ((s.trace (s.n - 1) + 0x100) % 2 ^ 32) i)
      have hi' : i + 1 < s.n := hi
      rw [hm1, setTrace_other _ _ _ i (by omega)]
      by_cases hin : i + 1 = m
      · rw [hin, setTrace_same, hs', ← hfs.2, ← hin]
        exact hadj i hi'
      · rw [setTrace_other _ _ _ (i + 1) hin]
        exact hadj i hi'
  case commit =>
    intro s _ _ h
    obtain ⟨hv, hnv, hlt, hrt⟩ := h
    refine ⟨hnv, hnv, shl8_mod _, ?_⟩
    intro hsc
    obtain ⟨hd, hlast, hadj⟩ := hrt (shortCommits_earlier _ _ hsc)
    have he := (hsc s.n s.last_value _ (List.mem_append.mpr (Or.inr (List.mem_singleton.mpr rfl)))).2
    obtain ⟨hf, _, hsam⟩ := shortWord_fields _ _ _ hlt (shl8_mod (env.cvr s.reads_cvr)) hv he
    refine ⟨?_, ?_, ?_⟩
    · show decode (setTrace s.trace s.n
          (commitWord s.last_ticks (shl8 (env.cvr s.reads_cvr)) s.last_value)) (s.n + 1)
        = (s.log ++ [Event.commit s.n s.last_value
            (sub32 s.last_ticks (shl8 (env.cvr s.reads_cvr)) >>> 8)]).map Event.obs
      rw [decode_succ_set, hd, decodeWord_short _ _ _ hlt (shl8_mod _) hv he, List.map_append]
      rfl
    · intro _
      show fmtBit (setTrace s.trace s.n
          (commitWord s.last_ticks (shl8 (env.cvr s.reads_cvr)) s.last_value) (s.n + 1 - 1)) = 1 →
        _
      rw [Nat.add_sub_cancel, setTrace_same, hf]
      intro h01
      cases h01
    · intro i hi
      show fmtBit (setTrace s.trace s.n
          (commitWord s.last_ticks (shl8 (env.cvr s.reads_cvr)) s.last_value) i) = 1 →
        sampleOf (setTrace s.trace s.n
          (commitWord s.last_ticks (shl8 (env.cvr s.reads_cvr)) s.last_value) (i + 1))
          = sampleOf (setTrace s.trace s.n
          (commitWord s.last_ticks (shl8 (env.cvr s.reads_cvr)) s.last_value) i)
      have hi' : i + 1 < s.n + 1 := hi
      rw [setTrace_other _ _ _ i (by omega)]
      by_cases hin : i + 1 = s.n
      · rw [hin, setTrace_same, hsam]
        intro hfi
        have hn0 : s.n ≠ 0 := by omega
        have hidx : i = s.n - 1 := by omega
        rw [hidx] at hfi ⊢
        exact (hlast hn0 hfi).symm
      · rw [setTrace_other _ _ _ (i + 1) hin]
        exact hadj i (by omega)

theorem init_roundTrip (env : Env) (tmax : Int) (core_clock : Nat) (trace0 : Nat → Nat) :
    RoundTrip (init env tmax core_clock trace0) := by
  have h0 : (0 : Nat) < 256 := by decide
  refine ⟨getInput_lt _, h0, shl8_mod _, fun _ => ⟨rfl, fun h => absurd rfl h, ?_⟩⟩
  intro i hi
  exact absurd hi (Nat.not_lt_zero _)

/-- C8. Decode round trip: in every run of `record()`, from the empty buffer
it starts with, as long as every commit had an elapsed time in
`[1, 2^23-1]`, decoding `trace[0..n)` by the record format (a long record of
count `r` as `r` units of `2^23` ticks at its sample, a short record as
`count` ticks at its sample) gives back exactly the sequence of encoder
events, each timeout as one unit at the committed level and each commit as
its elapsed ticks at the level that held; the sample changes only after a
short record; and the decoded durations sum to `2^23` per timeout plus the
committed elapsed ticks. -/
theorem decode_round_trip (env : Env) (tmax : Int) (core_clock : Nat)
    (trace0 : Nat → Nat) (k : Nat)
    (hshort : ShortCommits (run env k (init env tmax core_clock trace0)).log) :
    decode (run env k (init env tmax core_clock trace0)).trace
        (run env k (init env tmax core_clock trace0)).n
      = (run env k (init env tmax core_clock trace0)).log.map Event.obs ∧
    (∀ i, i + 1 < (run env k (init env tmax core_clock trace0)).n →
      fmtBit ((run env k (init env tmax core_clock trace0)).trace i) = 1 →
      sampleOf ((run env k (init env tmax core_clock trace0)).trace (i + 1))
        = sampleOf ((run env k (init env tmax core_clock trace0)).trace i)) ∧
    totalDuration (run env k (init env tmax core_clock trace0)).trace
        (run env k (init env tmax core_clock trace0)).n
      = consumed (run env k (init env tmax core_clock trace0)).log := by
  have h := run_preserves env _ (step_roundTrip env) k _
    (init_roundTrip env tmax core_clock trace0)
  generalize run env k (init env tmax core_clock trace0) = s at h hshort ⊢
  obtain ⟨hd, _, hadj⟩ := h.2.2.2 hshort
  refine ⟨hd, hadj, ?_⟩
  rw [← obsTicks_decode, hd, obsTicks_events]

/-- Witness for C8: Scenario B; the buffer `[0x80000300, 0x00006400]` decodes
to three units and an interval of 100 ticks, all at level 0. -/
theorem decode_round_trip_witness :
    ShortCommits (run envB 7 (init envB 200 120000000 (fun _ => 0))).log ∧
    decode (run envB 7 (init envB 200 120000000 (fun _ => 0))).trace
        (run envB 7 (init envB 200 120000000 (fun _ => 0))).n
      = [Obs.unit 0, Obs.unit 0, Obs.unit 0, Obs.interval 0 100] := by
  have hlog : (run envB 7 (init envB 200 120000000 (fun _ => 0))).log
      = [Event.timeoutAppend 0 0, Event.timeoutMerge 0 0, Event.timeoutMerge 0 0,
         Event.commit 1 0 100] := by decide
  have hs : ShortCommits (run envB 7 (init envB 200 120000000 (fun _ => 0))).log := by
    intro i lv e hm
    rw [hlog] at hm
    simp at hm
    rw [hm.2.2]
    decide
  refine ⟨hs, ?_⟩
  rw [(decode_round_trip envB 200 120000000 (fun _ => 0) 7 hs).1, hlog]
  rfl

/-! ## C9: repeated timeouts -/

theorem longWord_eq (k v : Nat) (hk : k < 2 ^ 23) (hv : v < 256) :
    0x80000000 ||| (k <<< 8) ||| v = 2 ^ 31 + k * 256 + v := by
  have h1 : (0x80000000 : Nat) ||| (k <<< 8) = 2 ^ 31 + k * 256 := by
    rw [Nat.shiftLeft_eq]
    have h := Nat.mul_add_lt_is_or (i := 31) (b := k * 2 ^ 8) (by omega) 1
    rw [Nat.mul_one] at h
    exact h.symm
  rw [h1]
  have h := Nat.mul_add_lt_is_or (i := 8) (b := v) hv ((2 ^ 31 + k * 256) / 256)
  have h2 : 2 ^ 8 * ((2 ^ 31 + k * 256) / 256) = 2 ^ 31 + k * 256 := by omega
  rw [h2] at h
  exact h.symm

theorem run_succ_last (env : Env) (k : Nat) (s : State) :
    run env (k + 1) s = step env (run env k s) := by
  rw [run_add]
  rfl

theorem first_timeout (env : Env) (s0 : State) (v : Nat) (htd : timeoutDetected env s0)
    (hn : s0.n = 0) (hv : s0.last_value = v) (hv256 : v < 256) :
    AfterTimeouts s0 (step env s0) v 1 := by
  have hnl : needsNewLong s0.n s0.trace s0.last_value = true := by
    rw [hn]
    exact needsNewLong_zero _ _
  rw [step_append env s0 htd hnl (by rw [hn]; decide)]
  refine ⟨rfl, hv, ?_, ?_, rfl, rfl, ?_, ?_⟩
  · show s0.n + 1 = 1
    rw [hn]
  · show setTrace s0.trace s0.n ((0x80000100 ||| s0.last_value) % 2 ^ 32) 0 = _
    rw [hn, setTrace_same, hv, or_low _ _ (by norm_num) hv256]
    omega
  · show sub32 s0.last_ticks 0x80000000 = _
    unfold sub32
    omega
  · intro h0
    show spend s0.ticks_left 0x800000 = 0
    rw [h0, spend_zero]

theorem next_timeout (env : Env) (s0 s : State) (v j : Nat) (h : AfterTimeouts s0 s v j)
    (hj : j < 2 ^ 23 - 1) (hv256 : v < 256) (htd : timeoutDetected env s) :
    AfterTimeouts s0 (step env s) v (j + 1) := by
  obtain ⟨_, hv, hn, htr, hri, hrc, hlt, htl⟩ := h
  have hnl : needsNewLong s.n s.trace s.last_value = false := by
    have hna : ¬ appendCase s.n s.trace s.last_value := by
      rw [hn, hv]
      unfold appendCase fmtBit countOf sampleOf
      rw [htr]
      omega
    cases hb : needsNewLong s.n s.trace s.last_value
    · rfl
    · exact absurd ((needsNewLong_iff _ _ _ (by rw [hv]; exact hv256)).mp hb) hna
  rw [step_merge env s htd hnl]
  refine ⟨rfl, hv, hn, ?_, ?_, ?_, ?_, ?_⟩
  · show setTrace s.trace (s.n - 1) ((s.trace (s.n - 1) + 0x100) % 2 ^ 32) 0 = _
    rw [hn, setTrace_same, htr]
    omega
  · show s.reads_in + 1 = _
    rw [hri]
    omega
  · show s.reads_cvr + 1 = _
    rw [hrc]
    omega
  · show sub32 s.last_ticks 0x80000000 = _
    rw [hlt]
    unfold sub32
    omega
  · intro h0
    show spend s.ticks_left 0x800000 = 0
    rw [htl h0, spend_zero]

theorem overflow_timeout (env : Env) (s0 s : State) (v : Nat)
    (h : AfterTimeouts s0 s v (2 ^ 23 - 1)) (hv256 : v < 256) (htd : timeoutDetected env s) :
    (step env s).n = 2 ∧ (step env s).trace 0 = 2 ^ 31 + (2 ^ 23 - 1) * 256 + v ∧
    (step env s).trace 1 = 0x80000100 ||| v := by
  obtain ⟨_, hv, hn, htr, _, _, _, _⟩ := h
  have hnl : needsNewLong s.n s.trace s.last_value = true := by
    rw [needsNewLong_iff _ _ _ (by rw [hv]; exact hv256), hn]
    right
    right
    unfold countOf
    rw [htr]
    omega
  rw [step_append env s htd hnl (by rw [hn]; decide)]
  refine ⟨?_, ?_, ?_⟩
  · show s.n + 1 = 2
    rw [hn]
  · show setTrace s.trace s.n _ 0 = _
    rw [hn, setTrace_other _ _ _ _ (by decide), htr]
  · show setTrace s.trace s.n ((0x80000100 ||| s.last_value) % 2 ^ 32) 1 = _
    rw [hn, setTrace_same, hv, or_low _ _ (by norm_num) hv256]
    omega

theorem timeouts_run (env : Env) (s0 : State) (v k : Nat) (hn : s0.n = 0)
    (hv : s0.last_value = v) (hv256 : v < 256) (hk1 : 1 ≤ k) (hk : k ≤ 2 ^ 23 - 1)
    (H : TimeoutRun env s0 k) : AfterTimeouts s0 (run env k s0) v k := by
  induction k with
  | zero => omega
  | succ k ih =>
      rw [run_succ_last]
      by_cases h0 : k = 0
      · subst h0
        exact first_timeout env s0 v (H 0 (by omega)) hn hv hv256
      · have ih' := ih (by omega) (by omega) (fun j hj => H j (by omega))
        exact next_timeout env s0 _ v k ih' (by omega) hv256 (H k (by omega))

theorem envT_start :
    (run envT 1 (init envT 0 120000000 (fun _ => 0))).pc = .inner ∧
    (run envT 1 (init envT 0 120000000 (fun _ => 0))).n = 0 ∧
    (run envT 1 (init envT 0 120000000 (fun _ => 0))).last_value = 5 ∧
    (run envT 1 (init envT 0 120000000 (fun _ => 0))).last_ticks = 0 ∧
    (run envT 1 (init envT 0 120000000 (fun _ => 0))).reads_in = 1 ∧
    (run envT 1 (init envT 0 120000000 (fun _ => 0))).reads_cvr = 1 ∧
    (run envT 1 (init envT 0 120000000 (fun _ => 0))).ticks_left = 0 := by
  decide

theorem envT_detect (s : State) (k : Nat) (hpc : s.pc = .inner) (hv : s.last_value = 5)
    (htl : s.ticks_left = 0) (hrc : s.reads_cvr = 1 + k)
    (hlt : s.last_ticks = (0 + k * 2 ^ 31) % 2 ^ 32) : timeoutDetected envT s := by
  refine ⟨hpc, ?_, le_of_eq htl.symm, ?_⟩
  · rw [hv]
    show GetInput 0x0500 = 5
    decide
  · rw [hlt, hrc]
    show sub32 _ (shl8 (if (1 + k) % 2 = 0 then 0 else 0x800000)) > 0x7fffffff
    rcases Nat.mod_two_eq_zero_or_one k with hk | hk
    · have h1 : ¬ (1 + k) % 2 = 0 := by omega
      have h2 : (0 + k * 2 ^ 31) % 2 ^ 32 = 0 := by omega
      rw [if_neg h1, h2]
      decide
    · have h1 : (1 + k) % 2 = 0 := by omega
      have h2 : (0 + k * 2 ^ 31) % 2 ^ 32 = 2 ^ 31 := by omega
      rw [if_pos h1, h2]
      decide

/-- On `envT` every step after the first outer test is a timeout, for as
many steps as one long record can count and one more. -/
theorem envT_timeoutRun (k : Nat) (hk : k ≤ 2 ^ 23) :
    TimeoutRun envT (run envT 1 (init envT 0 120000000 (fun _ => 0))) k := by
  obtain ⟨hpc, hn, hv, hlt, _, hrc, htl⟩ := envT_start
  generalize run envT 1 (init envT 0 120000000 (fun _ => 0)) = s0 at hpc hn hv hlt hrc htl ⊢
  induction k with
  | zero =>
      intro j hj
      omega
  | succ k ih =>
      have ih' := ih (by omega)
      intro j hj
      by_cases hjk : j < k
      · exact ih' j hjk
      · have hjk' : j = k := by omega
        subst hjk'
        by_cases h0 : j = 0
        · subst h0
          exact envT_detect s0 0 hpc hv htl hrc (by rw [hlt]; decide)
        · obtain ⟨h1, h2, _, _, _, h6, h7, h8⟩ :=
            timeouts_run envT s0 5 j hn hv (by decide) (by omega) (by omega) ih'
          exact envT_detect _ j h1 h2 (h8 htl) (by rw [h6, hrc]) (by rw [h7, hlt])

/-- C9. Repeated timeouts: from a state with an empty buffer and committed
level `v < 256`, when the next `k` steps are all timeouts, then for
`1 <= k <= 2^23-1` the buffer holds the single word
`0x80000000 | (k << 8) | v` (`n = 1`), and for `k = 2^23` the last timeout
leaves `trace[0]` at count `2^23-1` and appends `trace[1] = 0x80000100 | v`,
so `n = 2`. -/
theorem repeated_timeouts_grow_one_record (env : Env) (s0 : State) (v k : Nat)
    (hn : s0.n = 0) (hv : s0.last_value = v) (hv256 : v < 256)
    (H : TimeoutRun env s0 k) :
    (1 ≤ k → k ≤ 2 ^ 23 - 1 →
      (run env k s0).n = 1 ∧ (run env k s0).trace 0 = 0x80000000 ||| (k <<< 8) ||| v) ∧
    (k = 2 ^ 23 →
      (run env k s0).n = 2 ∧
      (run env k s0).trace 0 = 0x80000000 ||| ((2 ^ 23 - 1) <<< 8) ||| v ∧
      countOf ((run env k s0).trace 0) = 2 ^ 23 - 1 ∧
      (run env k s0).trace 1 = 0x80000100 ||| v) := by
  constructor
  · intro hk1 hk
    obtain ⟨_, _, h3, h4, _⟩ := timeouts_run env s0 v k hn hv hv256 hk1 hk H
    refine ⟨h3, ?_⟩
    rw [h4, longWord_eq k v (by omega) hv256]
  · intro hk
    subst hk
    have hA := timeouts_run env s0 v (2 ^ 23 - 1) hn hv hv256 (by norm_num) (le_refl _)
      (fun j hj => H j (by omega))
    have hlast := H (2 ^ 23 - 1) (by norm_num)
    obtain ⟨h1, h2, h3⟩ := overflow_timeout env s0 _ v hA hv256 hlast
    have e : (2 : Nat) ^ 23 = (2 ^ 23 - 1) + 1 := by norm_num
    have hr : run env (2 ^ 23) s0 = step env (run env (2 ^ 23 - 1) s0) :=
      (congrArg (fun m => run env m s0) e).trans (run_succ_last env _ s0)
    rw [hr]
    refine ⟨h1, ?_, ?_, h3⟩
    · rw [h2, longWord_eq _ v (by norm_num) hv256]
    · rw [h2]
      unfold countOf
      omega

/-- Witness for C9: on `envT` (level 5) the `2^23` steps after the first
outer test are all timeouts; they leave `n = 2` and
`trace[1] = 0x80000105`. -/
theorem repeated_timeouts_grow_one_record_witness :
    TimeoutRun envT (run envT 1 (init envT 0 120000000 (fun _ => 0))) (2 ^ 23) ∧
    (run envT (2 ^ 23) (run envT 1 (init envT 0 120000000 (fun _ => 0)))).n = 2 ∧
    (run envT (2 ^ 23) (run envT 1 (init envT 0 120000000 (fun _ => 0)))).trace 1
      = 0x80000100 ||| 5 := by
  have H := envT_timeoutRun (2 ^ 23) (le_refl _)
  have h := (repeated_timeouts_grow_one_record envT
    (run envT 1 (init envT 0 120000000 (fun _ => 0))) 5 (2 ^ 23)
    envT_start.2.1 envT_start.2.2.1 (by decide) H).2 rfl
  exact ⟨H, h.1, h.2.2.2⟩

/-! ## C10: the end-of-session remainder -/

theorem step_outer_stop (env : Env) (s : State) (hpc : s.pc = .outer) (h : s.ticks_left < 0) :
    step env s = { s with pc := .done } := by
  have hn : ¬ s.ticks_left ≥ 0 := by omega
  unfold step
  rw [hpc]
  simp only [hn, if_false]

theorem step_done (env : Env) (s : State) (hpc : s.pc = .done) : step env s = s := by
  unfold step
  rw [hpc]

theorem run_done (env : Env) (m : Nat) (s : State) (hpc : s.pc = .done) : run env m s = s := by
  induction m with
  | zero => rfl
  | succ m ih =>
      show run env m (step env s) = s
      rw [step_done env s hpc, ih]

theorem spend_neg (tl : Int) (d : Nat) (h : tl < 0) : spend tl d < 0 := by
  unfold spend
  split
  · split <;> omega
  · omega

/-- A timeout step that changes `ticks_left` was processed (not refused): the
loop continues at the inner test with the same level and the boundary
advanced by `0x80000000`. -/
theorem timeout_processed (env : Env) (s : State) (htd : timeoutDetected env s)
    (hneg : (step env s).ticks_left < 0) :
    (step env s).pc = .inner ∧ (step env s).last_value = s.last_value ∧
    (step env s).last_ticks = sub32 s.last_ticks 0x80000000 ∧
    (step env s).reads_cvr = s.reads_cvr + 1 ∧ (step env s).reads_in = s.reads_in + 1 := by
  have htl : s.ticks_left ≥ 0 := htd.2.2.1
  rw [step_timeout env s htd] at hneg ⊢
  cases h : timeoutWrite s.n s.trace s.last_value with
  | refused =>
      rw [h] at hneg
      have : s.ticks_left < 0 := hneg
      omega
  | written n1 t1 ev => exact ⟨rfl, rfl, rfl, rfl, rfl⟩

theorem sub32_half (p : Nat) :
    sub32 (p * 256) 0x80000000 = ((p + 2 ^ 23) % 2 ^ 24) * 256 := by
  unfold sub32
  omega

/-- After a timeout that made `ticks_left` negative with room in the buffer,
three more steps (inner test, commit, outer test) write one word and return. -/
theorem remainder_steps (env : Env) (s1 : State) (hpc : s1.pc = .inner)
    (hneg : s1.ticks_left < 0) (hn : s1.n < NMAX) :
    (run env 3 s1).pc = .done ∧ (run env 3 s1).n = s1.n + 1 ∧
    (run env 3 s1).trace = setTrace s1.trace s1.n
      (commitWord s1.last_ticks (shl8 (env.cvr s1.reads_cvr)) s1.last_value) := by
  have hne : ¬ (GetInput (env.portIN s1.reads_in) = s1.last_value ∧ s1.ticks_left ≥ 0) := by
    intro h
    omega
  have h1 := step_inner_exit env s1 hpc hne
  have h2 := step_commit env (step env s1) (by rw [h1]) (by rw [h1]; exact hn)
  have h3 := step_outer_stop env (step env (step env s1)) (by rw [h2]) (by
    rw [h2, h1]
    exact spend_neg _ _ hneg)
  have hrun : run env 3 s1 = step env (step env (step env s1)) := rfl
  rw [hrun, h3, h2, h1]
  exact ⟨rfl, rfl, rfl⟩

/-- C10. End-of-session remainder: when a timeout step makes `ticks_left`
negative while `n < NMAX` (left-aligned boundary `p << 8` before the timeout,
level `v`, next timer reading `c`, 24-bit), the following three steps append exactly the commit-path
word `(((b - c) mod 2^24) << 8) | v`, with `b = (p + 2^23) mod 2^24` the
boundary advanced by the timeout, and `record()` has returned: no later step
changes the state.  Scenario B (budget 24000000 ticks, between `2*2^23` and
`3*2^23`) returns `n = 2` with `trace = [0x80000300, 0x00006400]`. -/
theorem end_of_session_remainder (env : Env) (s : State) (p v : Nat)
    (htd : timeoutDetected env s) (hlt : s.last_ticks = p <<< 8)
    (hv : s.last_value = v) (hv256 : v < 256)
    (hc : env.cvr (s.reads_cvr + 1) < 2 ^ 24)
    (hneg : (step env s).ticks_left < 0) (hn : (step env s).n < NMAX) :
    (run env 3 (step env s)).pc = .done ∧
    (run env 3 (step env s)).n = (step env s).n + 1 ∧
    (run env 3 (step env s)).trace = setTrace (step env s).trace (step env s).n
      ((elapsed ((p + 2 ^ 23) % 2 ^ 24) (env.cvr (s.reads_cvr + 1)) <<< 8) ||| v) ∧
    (∀ m, run env m (run env 3 (step env s)) = run env 3 (step env s)) ∧
    ((2 : Int) * 2 ^ 23 < (init envB 200 120000000 (fun _ => 0)).ticks_left ∧
     (init envB 200 120000000 (fun _ => 0)).ticks_left ≤ 3 * 2 ^ 23 ∧
     record envB 200 120000000 (fun _ => 0) 7 = some 2 ∧
     (run envB 7 (init envB 200 120000000 (fun _ => 0))).trace 0 = 0x80000300 ∧
     (run envB 7 (init envB 200 120000000 (fun _ => 0))).trace 1 = 0x00006400) := by
  obtain ⟨h1, h2, h3, h4, _⟩ := timeout_processed env s htd hneg
  obtain ⟨r1, r2, r3⟩ := remainder_steps env (step env s) h1 hneg hn
  refine ⟨r1, r2, ?_, fun m => run_done env m _ r1, by decide⟩
  have hlt2 : s.last_ticks = p * 256 := by rw [hlt, Nat.shiftLeft_eq]
  rw [r3, h2, h3, h4, hlt2, hv, sub32_half p, shl8_of_lt _ hc,
    commitWord_eq _ _ v (Nat.mod_lt _ (by norm_num)) hc hv256, shl_or_eq _ _ hv256]

/-- Witness for C10: the third timeout of Scenario B. -/
theorem end_of_session_remainder_witness :
    timeoutDetected envB (run envB 3 (init envB 200 120000000 (fun _ => 0))) ∧
    (run envB 3 (step envB (run envB 3 (init envB 200 120000000 (fun _ => 0))))).pc = .done ∧
    (run envB 3 (step envB (run envB 3 (init envB 200 120000000 (fun _ => 0))))).n = 2 := by
  have htd : timeoutDetected envB (run envB 3 (init envB 200 120000000 (fun _ => 0))) := by
    unfold timeoutDetected
    decide
  have h := end_of_session_remainder envB (run envB 3 (init envB 200 120000000 (fun _ => 0)))
    0 0 htd (by decide) (by decide) (by decide) (by decide) (by decide) (by decide)
  exact ⟨htd, h.1, h.2.1⟩

/-! ## C11: session independence -/

theorem needsNewLong_agree (n : Nat) (t tr : Nat → Nat) (v : Nat)
    (h : ∀ i, i < n → t i = tr i) : needsNewLong n t v = needsNewLong n tr v := by
  by_cases h0 : n = 0
  · subst h0
    rw [needsNewLong_zero, needsNewLong_zero]
  · unfold needsNewLong
    rw [h (n - 1) (by omega)]

theorem step_inner_wait (env : Env) (s : State) (hpc : s.pc = .inner)
    (hin : GetInput (env.portIN s.reads_in) = s.last_value) (htl : s.ticks_left ≥ 0)
    (hto : ¬ sub32 s.last_ticks (shl8 (env.cvr s.reads_cvr)) > 0x7fffffff) :
    step env s = { s with
      pc := .inner
      new_value := s.last_value
      reads_in := s.reads_in + 1
      reads_cvr := s.reads_cvr + 1 } := by
  unfold step
  rw [hpc]
  simp only [hin, htl, and_self, if_true]
  unfold innerBody
  simp only [hto, if_false]

theorem step_sameRun (env : Env) (s s1 : State) (h : SameRun s s1) :
    SameRun (step env s) (step env s1) := by
  obtain ⟨heq, hag⟩ := h
  generalize s1.trace = t at heq hag
  subst heq
  revert t
  apply step_cases env (fun s s2 => ∀ t : Nat → Nat, (∀ i, i < s.n → t i = s.trace i) →
    SameRun s2 (step env { s with trace := t }))
  case outer_go =>
    intro s hpc htl t hag
    rw [step_outer_go env { s with trace := t } hpc htl]
    exact ⟨rfl, hag⟩
  case outer_stop =>
    intro s hpc htl t hag
    rw [step_outer_stop env { s with trace := t } hpc htl]
    exact ⟨rfl, hag⟩
  case inner_exit =>
    intro s hpc hc t hag
    rw [step_inner_exit env { s with trace := t } hpc hc]
    exact ⟨rfl, hag⟩
  case inner_wait =>
    intro s hpc hin htl hto t hag
    rw [step_inner_wait env { s with trace := t } hpc hin htl hto]
    exact ⟨rfl, hag⟩
  case refused =>
    intro s htd hnl hge t hag
    have hnl1 : needsNewLong s.n t s.last_value = true := by
      rw [needsNewLong_agree _ _ _ _ hag]
      exact hnl
    rw [step_refused env { s with trace := t } htd hnl1 hge]
    exact ⟨rfl, hag⟩
  case append =>
    intro s htd hnl hlt t hag
    have hnl1 : needsNewLong s.n t s.last_value = true := by
      rw [needsNewLong_agree _ _ _ _ hag]
      exact hnl
    rw [step_append env { s with trace := t } htd hnl1 hlt]
    refine ⟨rfl, ?_⟩
    intro i hi
    show setTrace t s.n _ i = setTrace s.trace s.n _ i
    have hi1 : i < s.n + 1 := hi
    by_cases hin : i = s.n
    · rw [hin, setTrace_same, setTrace_same]
    · rw [setTrace_other _ _ _ _ hin, setTrace_other _ _ _ _ hin]
      exact hag i (by omega)
  case merge =>
    intro s htd hnl t hag
    have hnl1 : needsNewLong s.n t s.last_value = false := by
      rw [needsNewLong_agree _ _ _ _ hag]
      exact hnl
    have hn0 : s.n ≠ 0 := by
      intro h0
      rw [h0, needsNewLong_zero] at hnl
      cases hnl
    rw [step_merge env { s with trace := t } htd hnl1]
    refine ⟨?_, ?_⟩
    · show _ = _
      rfl
    · intro i hi
      show setTrace t (s.n - 1) ((t (s.n - 1) + 0x100) % 2 ^ 32) i
        = setTrace s.trace (s.n - 1) ((s.trace (s.n - 1) + 0x100) % 2 ^ 32) i
      have hi1 : i < s.n := hi
      rw [hag (s.n - 1) (by omega)]
      by_cases hin : i = s.n - 1
      · rw [hin, setTrace_same, setTrace_same]
      · rw [setTrace_other _ _ _ _ hin, setTrace_other _ _ _ _ hin]
        exact hag i hi1
  case commit_full =>
    intro s hpc hge t hag
    rw [step_commit_full env { s with trace := t } hpc hge]
    exact ⟨rfl, hag⟩
  case commit =>
    intro s hpc hlt t hag
    rw [step_commit env { s with trace := t } hpc hlt]
    refine ⟨rfl, ?_⟩
    intro i hi
    show setTrace t s.n _ i = setTrace s.trace s.n _ i
    have hi1 : i < s.n + 1 := hi
    by_cases hin : i = s.n
    · rw [hin, setTrace_same, setTrace_same]
    · rw [setTrace_other _ _ _ _ hin, setTrace_other _ _ _ _ hin]
      exact hag i (by omega)
  case done =>
    intro s hpc t hag
    rw [step_done env { s with trace := t } hpc]
    exact ⟨rfl, hag⟩

theorem run_sameRun (env : Env) (k : Nat) (s s1 : State) (h : SameRun s s1) :
    SameRun (run env k s) (run env k s1) := by
  induction k generalizing s s1 with
  | zero => exact h
  | succ k ih => exact ih _ _ (step_sameRun env s s1 h)

/-- C11. Session independence: two calls of `record()` with the same `tmax`,
`core_clock` and input and timer readings, started with different contents
of `trace[]` and different values of `n`, are after every number of steps at
the same control point with the same variables, the same `n` and the same
encoder events, their buffers agree on `trace[0..n)`, and they return the
same value. -/
theorem session_independence (env : Env) (tmax : Int) (core_clock : Nat)
    (traceA traceB : Nat → Nat) (nA nB : Nat) (k : Nat) :
    resetN (entry env tmax core_clock traceA nA) = init env tmax core_clock traceA ∧
    resetN (entry env tmax core_clock traceB nB) = init env tmax core_clock traceB ∧
    run env k (resetN (entry env tmax core_clock traceB nB))
      = { run env k (resetN (entry env tmax core_clock traceA nA)) with
          trace := (run env k (resetN (entry env tmax core_clock traceB nB))).trace } ∧
    (∀ i, i < (run env k (resetN (entry env tmax core_clock traceA nA))).n →
      (run env k (resetN (entry env tmax core_clock traceB nB))).trace i
        = (run env k (resetN (entry env tmax core_clock traceA nA))).trace i) ∧
    record env tmax core_clock traceB k = record env tmax core_clock traceA k := by
  have h0 : SameRun (init env tmax core_clock traceA) (init env tmax core_clock traceB) :=
    ⟨rfl, fun i hi => absurd hi (Nat.not_lt_zero _)⟩
  have h := run_sameRun env k _ _ h0
  refine ⟨rfl, rfl, h.1, h.2, ?_⟩
  unfold record
  simp only
  rw [h.1]

/-- Witness for C11: Scenario B run on two different earlier buffers and
counts gives the same first word. -/
theorem session_independence_witness :
    (run envB 7 (resetN (entry envB 200 120000000 (fun _ => 0xdeadbeef) 55))).trace 0
      = (run envB 7 (resetN (entry envB 200 120000000 (fun _ => 0) 3))).trace 0 :=
  (session_independence envB 200 120000000 (fun _ => 0) (fun _ => 0xdeadbeef) 3 55 7).2.2.2.1
    0 (by decide)

/-! ## C12: timeout detection and boundary advance -/

theorem timeout_test_iff (p c : Nat) (hp : p < 2 ^ 24) (hc : c < 2 ^ 24) :
    sub32 (p <<< 8) (c <<< 8) > 0x7fffffff ↔ elapsed p c ≥ 2 ^ 23 := by
  rw [Nat.shiftLeft_eq, Nat.shiftLeft_eq]
  have h := sub32_shl p c hp hc
  have h2 : p * 2 ^ 8 = p * 256 := by norm_num
  have h3 : c * 2 ^ 8 = c * 256 := by norm_num
  rw [h2, h3, h]
  omega

theorem elapsed_advance (p c : Nat) (h : elapsed p c ≥ 2 ^ 23) :
    elapsed ((p + 2 ^ 23) % 2 ^ 24) c = elapsed p c - 2 ^ 23 := by
  unfold elapsed at *
  omega

/-- A timeout step that stays in the inner loop was processed: the boundary
is reduced by `0x80000000` and the budget is spent. -/
theorem timeout_written (env : Env) (s : State) (htd : timeoutDetected env s)
    (hpc : (step env s).pc = .inner) :
    (step env s).last_ticks = sub32 s.last_ticks 0x80000000 ∧
    (step env s).ticks_left = spend s.ticks_left 0x800000 := by
  rw [step_timeout env s htd] at hpc ⊢
  cases h : timeoutWrite s.n s.trace s.last_value with
  | refused =>
      rw [h] at hpc
      cases hpc
  | written n1 t1 ev => exact ⟨rfl, rfl⟩

/-- C12. Timeout detection and boundary advance: at the inner loop test with
an unchanged level and a budget that is not negative, boundary `p << 8` and
timer reading `c` (both 24-bit), the test
`((p << 8) - (c << 8)) mod 2^32 > 0x7fffffff` holds, and the step is a
timeout, exactly when `(p - c) mod 2^24 >= 2^23`; a processed timeout
subtracts `0x80000000` modulo `2^32` from the boundary, which is then
`((p + 2^23) mod 2^24) << 8` with low 8 bits 0, so the elapsed ticks against
`c` drop by exactly `2^23`; a nonzero `ticks_left` is reduced by `2^23`, or
set to `-1` when that gives exactly 0, and a zero `ticks_left` stays 0. -/
theorem timeout_detection_and_advance (env : Env) (s : State) (p : Nat)
    (hpc : s.pc = .inner) (hin : GetInput (env.portIN s.reads_in) = s.last_value)
    (htl : s.ticks_left ≥ 0) (hp : p < 2 ^ 24) (hc : env.cvr s.reads_cvr < 2 ^ 24)
    (hlt : s.last_ticks = p <<< 8) :
    (sub32 (p <<< 8) (env.cvr s.reads_cvr <<< 8) > 0x7fffffff
      ↔ elapsed p (env.cvr s.reads_cvr) ≥ 2 ^ 23) ∧
    (timeoutDetected env s ↔ elapsed p (env.cvr s.reads_cvr) ≥ 2 ^ 23) ∧
    (timeoutDetected env s → (step env s).pc = .inner →
      (step env s).last_ticks = sub32 (p <<< 8) 0x80000000 ∧
      (step env s).last_ticks = ((p + 2 ^ 23) % 2 ^ 24) <<< 8 ∧
      (step env s).last_ticks % 256 = 0 ∧
      elapsed ((p + 2 ^ 23) % 2 ^ 24) (env.cvr s.reads_cvr)
        = elapsed p (env.cvr s.reads_cvr) - 2 ^ 23 ∧
      (s.ticks_left ≠ 0 → (step env s).ticks_left
        = if s.ticks_left - 2 ^ 23 = 0 then -1 else s.ticks_left - 2 ^ 23) ∧
      (s.ticks_left = 0 → (step env s).ticks_left = 0)) := by
  have htest := timeout_test_iff p (env.cvr s.reads_cvr) hp hc
  have hshl : shl8 (env.cvr s.reads_cvr) = env.cvr s.reads_cvr <<< 8 := by
    rw [shl8_of_lt _ hc, Nat.shiftLeft_eq]
  have hdet : timeoutDetected env s ↔ elapsed p (env.cvr s.reads_cvr) ≥ 2 ^ 23 := by
    rw [← htest]
    unfold timeoutDetected
    rw [hlt, hshl]
    exact ⟨fun h => h.2.2.2, fun h => ⟨hpc, hin, htl, h⟩⟩
  refine ⟨htest, hdet, ?_⟩
  intro htd hpc1
  obtain ⟨h1, h2⟩ := timeout_written env s htd hpc1
  have hp256 : p <<< 8 = p * 256 := by rw [Nat.shiftLeft_eq]
  have hadv : sub32 (p <<< 8) 0x80000000 = ((p + 2 ^ 23) % 2 ^ 24) <<< 8 := by
    rw [hp256, sub32_half, Nat.shiftLeft_eq]
  refine ⟨?_, ?_, ?_, elapsed_advance p _ (hdet.mp htd), ?_, ?_⟩
  · rw [h1, hlt]
  · rw [h1, hlt, hadv]
  · rw [h1, hlt, hadv, Nat.shiftLeft_eq]
    omega
  · intro hne
    rw [h2]
    unfold spend
    rw [if_pos hne]
    by_cases hz : s.ticks_left - 2 ^ 23 = 0
    · rw [if_pos hz]
      have hz' : ¬ s.ticks_left - ((0x800000 : Nat) : Int) ≠ 0 := by
        push_cast
        omega
      rw [if_neg hz']
      push_cast
      omega
    · rw [if_neg hz]
      have hz' : s.ticks_left - ((0x800000 : Nat) : Int) ≠ 0 := by
        push_cast
        omega
      rw [if_pos hz']
      push_cast
      omega
  · intro h0
    rw [h2, h0, spend_zero]

/-- Witness for C12: the first inner test of Scenario B (boundary 0, reading
`0x7FFFFF`, `2^23 + 1` ticks elapsed). -/
theorem timeout_detection_and_advance_witness :
    timeoutDetected envB (run envB 1 (init envB 200 120000000 (fun _ => 0))) ∧
    (step envB (run envB 1 (init envB 200 120000000 (fun _ => 0)))).last_ticks
      = 0x800000 <<< 8 ∧
    (step envB (run envB 1 (init envB 200 120000000 (fun _ => 0)))).ticks_left
      = 24000000 - 2 ^ 23 := by
  have h := timeout_detection_and_advance envB
    (run envB 1 (init envB 200 120000000 (fun _ => 0))) 0
    (by decide) (by decide) (by decide) (by decide) (by decide) (by decide)
  have htd := h.2.1.mpr (by decide)
  have h3 := h.2.2 htd (by decide)
  refine ⟨htd, h3.2.1, ?_⟩
  rw [h3.2.2.2.2.1 (by decide)]
  decide

/-! ## C15: the frame of `record()` -/

theorem step_n_mono (env : Env) (s : State) : s.n ≤ (step env s).n := by
  apply step_cases env (fun s s1 => s.n ≤ s1.n)
  case append =>
    intro s _ _ _
    exact Nat.le_succ _
  case commit =>
    intro s _ _
    exact Nat.le_succ _
  all_goals
    intro s
    intros
    exact le_refl _

theorem run_n_mono (env : Env) (m : Nat) (s : State) : s.n ≤ (run env m s).n := by
  induction m generalizing s with
  | zero => exact le_refl _
  | succ m ih => exact le_trans (step_n_mono env s) (ih (step env s))

theorem step_frame (env : Env) (trace0 : Nat → Nat) (s : State) (h : Frame trace0 s) :
    Frame trace0 (step env s) := by
  revert h
  apply step_cases env (fun s s1 => Frame trace0 s → Frame trace0 s1)
  case append =>
    intro s _ _ _ h i hi
    have hi1 : s.n + 1 ≤ i := hi
    show setTrace s.trace s.n _ i = trace0 i
    rw [setTrace_other _ _ _ _ (by omega)]
    exact h i (by omega)
  case merge =>
    intro s _ hnl h i hi
    have hi1 : s.n ≤ i := hi
    have hn0 : s.n ≠ 0 := by
      intro h0
      rw [h0, needsNewLong_zero] at hnl
      cases hnl
    show setTrace s.trace (s.n - 1) _ i = trace0 i
    rw [setTrace_other _ _ _ _ (by omega)]
    exact h i hi1
  case commit =>
    intro s _ _ h i hi
    have hi1 : s.n + 1 ≤ i := hi
    show setTrace s.trace s.n _ i = trace0 i
    rw [setTrace_other _ _ _ _ (by omega)]
    exact h i (by omega)
  all_goals
    intro s
    intros
    rename_i h
    exact h

/-- C15. Frame of `record()`: after every number of steps, every element of
`trace[]` at an index from `n` upwards holds the value it had before the
call, every index the encoder wrote is below `n`, and `n` does not decrease
in later steps; so when `record()` returns `r`, the elements `trace[i]`,
`r <= i < NMAX`, are unchanged. -/
theorem record_frame (env : Env) (tmax : Int) (core_clock : Nat)
    (trace0 : Nat → Nat) (k : Nat) :
    (∀ i, (run env k (init env tmax core_clock trace0)).n ≤ i →
      (run env k (init env tmax core_clock trace0)).trace i = trace0 i) ∧
    (∀ ev ∈ (run env k (init env tmax core_clock trace0)).log,
      ev.index < (run env k (init env tmax core_clock trace0)).n) ∧
    (∀ m, (run env k (init env tmax core_clock trace0)).n
      ≤ (run env (k + m) (init env tmax core_clock trace0)).n) ∧
    (∀ r, record env tmax core_clock trace0 k = some r →
      ∀ i, r ≤ i → i < NMAX →
        (run env k (init env tmax core_clock trace0)).trace i = trace0 i) := by
  have hf : Frame trace0 (run env k (init env tmax core_clock trace0)) :=
    run_preserves env _ (step_frame env trace0) k _ (fun _ _ => rfl)
  have hlog := run_logBelow env k (init env tmax core_clock trace0)
    (fun ev hev => by cases hev)
  refine ⟨hf, hlog, ?_, ?_⟩
  · intro m
    rw [run_add]
    exact run_n_mono env m _
  · intro r hr i hi _
    unfold record at hr
    simp only at hr
    split at hr
    · cases hr
      exact hf i hi
    · cases hr

/-- Witness for C15: Scenario B on a buffer filled with `0xdeadbeef` returns 2
and leaves `trace[2]` as it was. -/
theorem record_frame_witness :
    record envB 200 120000000 (fun _ => 0xdeadbeef) 7 = some 2 ∧
    (run envB 7 (init envB 200 120000000 (fun _ => 0xdeadbeef))).trace 2 = 0xdeadbeef :=
  ⟨by decide,
   (record_frame envB 200 120000000 (fun _ => 0xdeadbeef) 7).2.2.2 2 (by decide) 2
     (le_refl _) (by decide)⟩

/-! ## C16: a negative budget -/

/-- C16. Negative budget: for `tmax < 0` and a 32-bit `core_clock >= 1000` the
budget `tmax * floor(core_clock / 1000)` is negative; no step reaches the
inner loop or the commit point, `n` stays 0, `trace[]` stays as it was and
nothing is written, and from the first step on `record(tmax)` has returned 0. -/
theorem negative_budget_returns_zero (env : Env) (tmax : Int) (core_clock : Nat)
    (trace0 : Nat → Nat) (k : Nat)
    (ht : tmax < 0) (hc : core_clock ≥ 1000) (hc32 : core_clock < 2 ^ 32) :
    (init env tmax core_clock trace0).ticks_left = tmax * ((core_clock / 1000 : Nat) : Int) ∧
    (init env tmax core_clock trace0).ticks_left < 0 ∧
    (run env k (init env tmax core_clock trace0)).pc ≠ .inner ∧
    (run env k (init env tmax core_clock trace0)).pc ≠ .commit ∧
    (run env k (init env tmax core_clock trace0)).n = 0 ∧
    (run env k (init env tmax core_clock trace0)).trace = trace0 ∧
    (run env k (init env tmax core_clock trace0)).log = [] ∧
    record env tmax core_clock trace0 (k + 1) = some 0 := by
  have hmod : core_clock % 2 ^ 32 = core_clock := Nat.mod_eq_of_lt hc32
  have hB : (init env tmax core_clock trace0).ticks_left
      = tmax * ((core_clock / 1000 : Nat) : Int) := by
    show tmax * ((core_clock % 2 ^ 32 / 1000 : Nat) : Int) = _
    rw [hmod]
  have hpos : (0 : Int) < ((core_clock / 1000 : Nat) : Int) := by
    have : 1 ≤ core_clock / 1000 := by omega
    omega
  have hneg : (init env tmax core_clock trace0).ticks_left < 0 := by
    rw [hB]
    exact Int.mul_neg_of_neg_of_pos ht hpos
  have h1 : step env (init env tmax core_clock trace0)
      = { init env tmax core_clock trace0 with pc := .done } :=
    step_outer_stop env _ rfl hneg
  have hrun : ∀ j, run env (j + 1) (init env tmax core_clock trace0)
      = { init env tmax core_clock trace0 with pc := .done } := by
    intro j
    show run env j (step env (init env tmax core_clock trace0)) = _
    rw [h1]
    exact run_done env j _ rfl
  have hrec : record env tmax core_clock trace0 (k + 1) = some 0 := by
    unfold record
    simp only
    rw [hrun k]
    rfl
  refine ⟨hB, hneg, ?_, ?_, ?_, ?_, ?_, hrec⟩
  all_goals
    cases k with
    | zero =>
        first
          | rfl
          | (intro h; cases h)
    | succ j =>
        rw [hrun j]
        first
          | rfl
          | (intro h; cases h)

/-- Witness for C16: `record(-5)` at 120 MHz. -/
theorem negative_budget_returns_zero_witness :
    record envA (-5) 120000000 (fun _ => 0xdeadbeef) 1 = some 0 :=
  (negative_budget_returns_zero envA (-5) 120000000 (fun _ => 0xdeadbeef) 0
    (by decide) (by decide) (by decide)).2.2.2.2.2.2.2

/-! ## C13 and C14: which path wrote a word -/

theorem step_levels (env : Env) (s : State) (h : Levels s) : Levels (step env s) := by
  revert h
  apply step_cases env (fun s s1 => Levels s → Levels s1)
  case inner_exit =>
    intro s _ _ h
    exact ⟨h.1, getInput_lt _, h.2.2⟩
  case inner_wait =>
    intro s _ _ _ _ h
    exact ⟨h.1, h.1, h.2.2⟩
  case refused =>
    intro s _ _ _ h
    exact ⟨h.1, h.1, h.2.2⟩
  case append =>
    intro s _ _ _ h
    exact ⟨h.1, h.1, sub32_mod _ _ h.2.2 (by norm_num)⟩
  case merge =>
    intro s _ _ h
    exact ⟨h.1, h.1, sub32_mod _ _ h.2.2 (by norm_num)⟩
  case commit =>
    intro s _ _ h
    exact ⟨h.2.1, h.2.1, shl8_mod _⟩
  all_goals
    intro s
    intros
    rename_i h
    exact h

theorem init_levels (env : Env) (tmax : Int) (core_clock : Nat) (trace0 : Nat → Nat) :
    Levels (init env tmax core_clock trace0) := by
  have h0 : (0 : Nat) < 256 := by decide
  exact ⟨getInput_lt _, h0, shl8_mod _⟩

theorem concat_eq (l l1 : List Event) (ev ev1 : Event) (h : l ++ [ev] = l1 ++ [ev1]) :
    l = l1 ∧ ev = ev1 := by
  have h1 := List.append_inj' h rfl
  exact ⟨h1.1, List.cons.inj h1.2 |>.1⟩

theorem step_lastEvent (env : Env) (s : State) (h : LastEvent s) :
    LastEvent (step env s) := by
  revert h
  apply step_cases env (fun s s1 => LastEvent s → LastEvent s1)
  case append =>
    intro s _ _ _ _
    refine ⟨fun h => ?_, fun l ev h => ?_⟩
    · exact absurd h (List.append_ne_nil_of_right_ne_nil _ (List.cons_ne_nil _ _))
    · obtain ⟨_, h2⟩ := concat_eq _ _ _ _ h
      rw [← h2]
      exact ⟨Nat.succ_ne_zero _, rfl⟩
  case merge =>
    intro s _ hnl _
    have hn0 : s.n ≠ 0 := by
      intro h0
      rw [h0, needsNewLong_zero] at hnl
      cases hnl
    refine ⟨fun h => ?_, fun l ev h => ?_⟩
    · exact absurd h (List.append_ne_nil_of_right_ne_nil _ (List.cons_ne_nil _ _))
    · obtain ⟨_, h2⟩ := concat_eq _ _ _ _ h
      rw [← h2]
      exact ⟨hn0, rfl⟩
  case commit =>
    intro s _ _ _
    refine ⟨fun h => ?_, fun l ev h => ?_⟩
    · exact absurd h (List.append_ne_nil_of_right_ne_nil _ (List.cons_ne_nil _ _))
    · obtain ⟨_, h2⟩ := concat_eq _ _ _ _ h
      rw [← h2]
      exact ⟨Nat.succ_ne_zero _, rfl⟩
  all_goals
    intro s
    intros
    rename_i h
    exact h

theorem step_edgeSeen (env : Env) (s : State) (hl : Levels s) (h : EdgeSeen s) :
    EdgeSeen (step env s) := by
  revert hl h
  apply step_cases env (fun s s1 => Levels s → EdgeSeen s → EdgeSeen s1)
  case outer_go =>
    intro s hpc htl _ h
    refine ⟨(fun hc => by cases hc), fun l i v e hlog _ _ => ?_⟩
    exact h.2 l i v e hlog (by rw [hpc]; intro hc; cases hc) (fun _ => htl)
  case outer_stop =>
    intro s _ _ _ h
    exact ⟨(fun hc => by cases hc), fun l i v e _ hd => absurd rfl hd⟩
  case inner_exit =>
    intro s hpc hc _ h
    refine ⟨fun _ => ?_, fun l i v e hlog _ _ => ?_⟩
    · by_cases hv : GetInput (env.portIN s.reads_in) = s.last_value
      · right
        left
        show s.ticks_left < 0
        by_contra hge
        exact hc ⟨hv, by omega⟩
      · exact Or.inl hv
    · exact h.2 l i v e hlog (by rw [hpc]; intro hc; cases hc)
        (by rw [hpc]; intro hc; cases hc)
  case inner_wait =>
    intro s hpc _ _ _ _ h
    refine ⟨(fun hc => by cases hc), fun l i v e hlog _ _ => ?_⟩
    exact h.2 l i v e hlog (by rw [hpc]; intro hc; cases hc)
      (by rw [hpc]; intro hc; cases hc)
  case refused =>
    intro s htd _ hge _ h
    refine ⟨fun _ => Or.inr (Or.inr hge), fun l i v e hlog _ _ => ?_⟩
    exact h.2 l i v e hlog (by rw [htd.1]; intro hc; cases hc)
      (by rw [htd.1]; intro hc; cases hc)
  case append =>
    intro s _ _ _ _ _
    refine ⟨(fun hc => by cases hc), fun l i v e hlog _ _ => ?_⟩
    obtain ⟨_, h2⟩ := concat_eq _ _ _ _ hlog
    cases h2
  case merge =>
    intro s _ _ _ _
    refine ⟨(fun hc => by cases hc), fun l i v e hlog _ _ => ?_⟩
    obtain ⟨_, h2⟩ := concat_eq _ _ _ _ hlog
    cases h2
  case commit_full =>
    intro s _ _ _ _
    exact ⟨(fun hc => by cases hc), fun l i v e _ hd => absurd rfl hd⟩
  case commit =>
    intro s hpc hlt hl h
    refine ⟨(fun hc => by cases hc), fun l i v e _ _ htl => ?_⟩
    have htl1 : spend s.ticks_left
        (sub32 s.last_ticks (shl8 (env.cvr s.reads_cvr)) >>> 8) ≥ 0 := htl rfl
    show sampleOf (setTrace s.trace s.n
      (commitWord s.last_ticks (shl8 (env.cvr s.reads_cvr)) s.last_value) (s.n + 1 - 1))
      ≠ s.new_value
    rw [Nat.add_sub_cancel, setTrace_same,
      sampleOf_commitWord _ _ _ hl.2.2 (shl8_mod _) hl.1]
    rcases h.1 hpc with h1 | h1 | h1
    · exact fun hc => h1 hc.symm
    · have := spend_neg s.ticks_left
        (sub32 s.last_ticks (shl8 (env.cvr s.reads_cvr)) >>> 8) h1
      omega
    · omega
  case done =>
    intro s hpc _ _
    exact ⟨(fun hc => by rw [hpc] at hc; cases hc), fun l i v e _ hd => absurd hpc hd⟩

theorem mem_concat (x : Event) (l : List Event) (ev : Event) :
    x ∈ l ++ [ev] ↔ x ∈ l ∨ x = ev := by
  simp

theorem merge_case_fields (n : Nat) (trace : Nat → Nat) (v : Nat) (hv : v < 256)
    (hnl : needsNewLong n trace v = false) :
    n ≠ 0 ∧ fmtBit (trace (n - 1)) = 1 ∧ sampleOf (trace (n - 1)) = v ∧
    countOf (trace (n - 1)) ≠ 2 ^ 23 - 1 := by
  have hna : ¬ appendCase n trace v := by
    intro hc
    rw [(needsNewLong_iff _ _ _ hv).mpr hc] at hnl
    cases hnl
  unfold appendCase at hna
  have hfs : fmtBit (trace (n - 1)) = 1 ∧ sampleOf (trace (n - 1)) = v := by
    by_contra hc
    exact hna (Or.inr (Or.inl hc))
  exact ⟨fun h0 => hna (Or.inl h0), hfs.1, hfs.2, fun hc => hna (Or.inr (Or.inr hc))⟩

theorem step_longs (env : Env) (s : State) (hl : Levels s) (hb : LogBelow s)
    (hle : LastEvent s) (he : EdgeSeen s) (h : Longs s) : Longs (step env s) := by
  revert hl hb hle he h
  apply step_cases env (fun s s1 =>
    Levels s → LogBelow s → LastEvent s → EdgeSeen s → Longs s → Longs s1)
  case append =>
    intro s _ hnl hlt hl hb _ _ h
    obtain ⟨hB, hC, hD, hE4, hE5⟩ := h
    obtain ⟨hf, _, hsam⟩ := longWord_fields s.last_value hl.1
    refine ⟨?_, ?_, ?_, ?_, ?_⟩
    · intro i v hm
      show fmtBit (setTrace s.trace s.n _ i) = 1 ∧ sampleOf (setTrace s.trace s.n _ i) = v
      rcases (mem_concat _ _ _).mp hm with h1 | h1
      · have hi : i < s.n := hb _ h1
        rw [setTrace_other _ _ _ _ (by omega)]
        exact hB i v h1
      · cases h1
        rw [setTrace_same]
        exact ⟨hf, hsam⟩
    · intro v hm _
      show v = s.last_value
      have hm1 : Event.timeoutAppend s.n v ∈ s.log ++ [Event.timeoutAppend s.n s.last_value] :=
        hm
      rcases (mem_concat _ _ _).mp hm1 with h1 | h1
      · have hi : s.n < s.n := hb _ h1
        omega
      · cases h1
        rfl
    · intro i v w hm1 hm2
      show countOf (setTrace s.trace s.n _ i) = 2 ^ 23 - 1 ∧
        sampleOf (setTrace s.trace s.n _ (i + 1)) = sampleOf (setTrace s.trace s.n _ i)
      rcases (mem_concat _ _ _).mp hm1 with h1 | h1
      · have hi : i < s.n := hb _ h1
        rw [setTrace_other _ _ _ i (by omega)]
        rcases (mem_concat _ _ _).mp hm2 with h2 | h2
        · have hi2 : i + 1 < s.n := hb _ h2
          rw [setTrace_other _ _ _ (i + 1) (by omega)]
          exact hD i v w h1 h2
        · have hi1 : i + 1 = s.n := (Event.timeoutAppend.inj h2).1
          have hidx : i = s.n - 1 := by omega
          have hn0 : s.n ≠ 0 := by omega
          rw [hidx] at h1
          have hv := hC v h1 hn0
          obtain ⟨hfb, hsb⟩ := hB _ _ h1
          have hc := (needsNewLong_iff _ _ _ hl.1).mp hnl
          rw [hi1, setTrace_same, hsam, hidx]
          rw [hv] at hsb
          refine ⟨?_, hsb.symm⟩
          rcases hc with hc | hc | hc
          · exact absurd hc hn0
          · exact absurd ⟨hfb, hsb⟩ hc
          · exact hc
      · have hi1 : i = s.n := by
          cases h1
          rfl
        rcases (mem_concat _ _ _).mp hm2 with h2 | h2
        · have hi2 : i + 1 < s.n := hb _ h2
          omega
        · have hi2 : i + 1 = s.n := (Event.timeoutAppend.inj h2).1
          omega
    · intro i v hm
      rcases (mem_concat _ _ _).mp hm with h1 | h1
      · obtain ⟨w, hw⟩ := hE4 i v h1
        exact ⟨w, (mem_concat _ _ _).mpr (Or.inl hw)⟩
      · cases h1
    · intro i v w e hm1 hm2
      rcases (mem_concat _ _ _).mp hm2 with h2 | h2
      · rcases (mem_concat _ _ _).mp hm1 with h1 | h1
        · exact hE5 i v w e h1 h2
        · have hi : i < s.n := hb _ h2
          have hi1 : i = s.n := by
            cases h1
            rfl
          omega
      · cases h2
  case merge =>
    intro s htd hnl hl hb hle he h
    obtain ⟨hB, hC, hD, hE4, hE5⟩ := h
    obtain ⟨hn0, hf0, hs0, hc0⟩ := merge_case_fields _ _ _ hl.1 hnl
    obtain ⟨hf1, _, hs1⟩ := merged_fields _ _ hf0 hs0 hc0
    refine ⟨?_, ?_, ?_, ?_, ?_⟩
    · intro i v hm
      show fmtBit (setTrace s.trace (s.n - 1) _ i) = 1 ∧
        sampleOf (setTrace s.trace (s.n - 1) _ i) = v
      rcases (mem_concat _ _ _).mp hm with h1 | h1
      · by_cases hi : i = s.n - 1
        · rw [hi, setTrace_same]
          rw [hi] at h1
          exact ⟨hf1, by rw [hs1, ← hs0]; exact (hB _ _ h1).2⟩
        · rw [setTrace_other _ _ _ _ hi]
          exact hB i v h1
      · cases h1
    · intro v hm hn
      rcases (mem_concat _ _ _).mp hm with h1 | h1
      · exact hC v h1 hn
      · cases h1
    · intro i v w hm1 hm2
      show countOf (setTrace s.trace (s.n - 1) _ i) = 2 ^ 23 - 1 ∧
        sampleOf (setTrace s.trace (s.n - 1) _ (i + 1))
          = sampleOf (setTrace s.trace (s.n - 1) _ i)
      rcases (mem_concat _ _ _).mp hm1 with h1 | h1
      · rcases (mem_concat _ _ _).mp hm2 with h2 | h2
        · have hi2 : i + 1 < s.n := hb _ h2
          rw [setTrace_other _ _ _ i (by omega)]
          obtain ⟨hd1, hd2⟩ := hD i v w h1 h2
          refine ⟨hd1, ?_⟩
          by_cases hi : i + 1 = s.n - 1
          · rw [hi, setTrace_same, hs1, ← hs0, ← hi]
            exact hd2
          · rw [setTrace_other _ _ _ _ hi]
            exact hd2
        · cases h2
      · cases h1
    · intro i v hm
      rcases (mem_concat _ _ _).mp hm with h1 | h1
      · obtain ⟨w, hw⟩ := hE4 i v h1
        exact ⟨w, (mem_concat _ _ _).mpr (Or.inl hw)⟩
      · have hi : i = s.n - 1 := by
          cases h1
          rfl
        rw [hi]
        rcases List.eq_nil_or_concat s.log with hnil | ⟨l, ev, hcat⟩
        · exact absurd (hle.1 hnil) hn0
        · rw [List.concat_eq_append] at hcat
          obtain ⟨_, hidx⟩ := hle.2 l ev hcat
          have hmem : ev ∈ s.log := by
            rw [hcat]
            exact (mem_concat _ _ _).mpr (Or.inr rfl)
          cases ev with
          | timeoutAppend i1 v1 =>
              have : i1 = s.n - 1 := hidx
              rw [this] at hmem
              exact ⟨v1, (mem_concat _ _ _).mpr (Or.inl hmem)⟩
          | timeoutMerge i1 v1 =>
              have : i1 = s.n - 1 := hidx
              rw [this] at hmem
              obtain ⟨w, hw⟩ := hE4 _ _ hmem
              exact ⟨w, (mem_concat _ _ _).mpr (Or.inl hw)⟩
          | commit i1 v1 e1 =>
              have hne := he.2 l i1 v1 e1 hcat (by rw [htd.1]; intro hc; cases hc)
                (by rw [htd.1]; intro hc; cases hc)
              exact absurd hs0 hne
    · intro i v w e hm1 hm2
      rcases (mem_concat _ _ _).mp hm2 with h2 | h2
      · rcases (mem_concat _ _ _).mp hm1 with h1 | h1
        · exact hE5 i v w e h1 h2
        · cases h1
      · cases h2
  case commit =>
    intro s _ hlt hl hb _ _ h
    obtain ⟨hB, hC, hD, hE4, hE5⟩ := h
    refine ⟨?_, ?_, ?_, ?_, ?_⟩
    · intro i v hm
      show fmtBit (setTrace s.trace s.n _ i) = 1 ∧ sampleOf (setTrace s.trace s.n _ i) = v
      rcases (mem_concat _ _ _).mp hm with h1 | h1
      · have hi : i < s.n := hb _ h1
        rw [setTrace_other _ _ _ _ (by omega)]
        exact hB i v h1
      · cases h1
    · intro v hm _
      have hm1 : Event.timeoutAppend s.n v ∈ s.log ++ [Event.commit s.n s.last_value
          (sub32 s.last_ticks (shl8 (env.cvr s.reads_cvr)) >>> 8)] := hm
      rcases (mem_concat _ _ _).mp hm1 with h1 | h1
      · have hi : s.n < s.n := hb _ h1
        omega
      · cases h1
    · intro i v w hm1 hm2
      show countOf (setTrace s.trace s.n _ i) = 2 ^ 23 - 1 ∧
        sampleOf (setTrace s.trace s.n _ (i + 1)) = sampleOf (setTrace s.trace s.n _ i)
      rcases (mem_concat _ _ _).mp hm1 with h1 | h1
      · rcases (mem_concat _ _ _).mp hm2 with h2 | h2
        · have hi2 : i + 1 < s.n := hb _ h2
          rw [setTrace_other _ _ _ i (by omega), setTrace_other _ _ _ (i + 1) (by omega)]
          exact hD i v w h1 h2
        · cases h2
      · cases h1
    · intro i v hm
      rcases (mem_concat _ _ _).mp hm with h1 | h1
      · obtain ⟨w, hw⟩ := hE4 i v h1
        exact ⟨w, (mem_concat _ _ _).mpr (Or.inl hw)⟩
      · cases h1
    · intro i v w e hm1 hm2
      rcases (mem_concat _ _ _).mp hm1 with h1 | h1
      · rcases (mem_concat _ _ _).mp hm2 with h2 | h2
        · exact hE5 i v w e h1 h2
        · have hi : i < s.n := hb _ h1
          have hi1 : i = s.n := by
            cases h2
            rfl
          omega
      · cases h1
  all_goals
    intro s
    intros
    rename_i h
    exact h

theorem step_prov (env : Env) (s : State) (h : Prov s) : Prov (step env s) := by
  obtain ⟨h1, h2, h3, h4, h5⟩ := h
  exact ⟨step_levels env s h1, step_logBelow env s h2, step_lastEvent env s h3,
    step_edgeSeen env s h1 h4, step_longs env s h1 h2 h3 h4 h5⟩

theorem init_prov (env : Env) (tmax : Int) (core_clock : Nat) (trace0 : Nat → Nat) :
    Prov (init env tmax core_clock trace0) := by
  have hnil : ∀ (l : List Event) (ev : Event), ([] : List Event) ≠ l ++ [ev] :=
    fun l ev h => absurd h.symm (List.append_ne_nil_of_right_ne_nil _ (List.cons_ne_nil _ _))
  refine ⟨init_levels env tmax core_clock trace0, ?_, ⟨fun _ => rfl, ?_⟩, ⟨?_, ?_⟩,
    ⟨?_, ?_, ?_, ?_, ?_⟩⟩
  · intro ev hev
    cases hev
  · intro l ev h
    exact absurd h (hnil l ev)
  · intro hc
    cases hc
  · intro l i v e h
    exact absurd h (hnil l _)
  · intro i v h
    cases h
  · intro v h
    cases h
  · intro i v w h
    cases h
  · intro i v h
    cases h
  · intro i v w e h
    cases h

theorem run_prov (env : Env) (tmax : Int) (core_clock : Nat) (trace0 : Nat → Nat) (k : Nat) :
    Prov (run env k (init env tmax core_clock trace0)) :=
  run_preserves env _ (step_prov env) k _ (init_prov env tmax core_clock trace0)

/-- C14. A timeout never merges into a word written by the commit path: in
every run of `record()`, every index that a merge (line 144) incremented was
appended by the timeout path (line 141) and by no commit (line 156); and
when the last event is a commit and the loop continues at the inner test,
the buffer is not empty, the sample of `trace[n-1]` differs from the
committed level, and the test of lines 136-138 selects a new long record.
On `envRace2` the commit word `0x80000201` has bit 31 set, and the timeout
that follows appends `0x80000102` and leaves it unchanged. -/
theorem merge_only_into_timeout_word (env : Env) (tmax : Int) (core_clock : Nat)
    (trace0 : Nat → Nat) (k : Nat) :
    (∀ i v, Event.timeoutMerge i v ∈ (run env k (init env tmax core_clock trace0)).log →
      (∃ w, Event.timeoutAppend i w ∈ (run env k (init env tmax core_clock trace0)).log) ∧
      ∀ w e, Event.commit i w e ∉ (run env k (init env tmax core_clock trace0)).log) ∧
    (∀ l i v e,
      (run env k (init env tmax core_clock trace0)).log = l ++ [Event.commit i v e] →
      (run env k (init env tmax core_clock trace0)).pc = .inner →
      (run env k (init env tmax core_clock trace0)).n ≠ 0 ∧
      sampleOf ((run env k (init env tmax core_clock trace0)).trace
          ((run env k (init env tmax core_clock trace0)).n - 1))
        ≠ (run env k (init env tmax core_clock trace0)).last_value ∧
      needsNewLong (run env k (init env tmax core_clock trace0)).n
        (run env k (init env tmax core_clock trace0)).trace
        (run env k (init env tmax core_clock trace0)).last_value = true) ∧
    ((run envRace2 6 (init envRace2 0 120000000 (fun _ => 0))).log
        = [Event.commit 0 1 (2 ^ 23 + 2), Event.timeoutAppend 1 2] ∧
     (run envRace2 6 (init envRace2 0 120000000 (fun _ => 0))).trace 0 = 0x80000201 ∧
     (run envRace2 6 (init envRace2 0 120000000 (fun _ => 0))).trace 1 = 0x80000102) := by
  obtain ⟨hl, _, hle, he, hlg⟩ := run_prov env tmax core_clock trace0 k
  generalize run env k (init env tmax core_clock trace0) = s at hl hle he hlg ⊢
  refine ⟨?_, ?_, by decide⟩
  · intro i v hm
    obtain ⟨w, hw⟩ := hlg.2.2.2.1 i v hm
    exact ⟨⟨w, hw⟩, fun w1 e => hlg.2.2.2.2 i w w1 e hw⟩
  · intro l i v e hlog hpc
    have hn0 := (hle.2 l _ hlog).1
    have hne := he.2 l i v e hlog (by rw [hpc]; intro hc; cases hc)
      (by rw [hpc]; intro hc; cases hc)
    refine ⟨hn0, hne, ?_⟩
    rw [needsNewLong_iff _ _ _ hl.1]
    exact Or.inr (Or.inl (fun hc => hne hc.2))

/-- Witness for C14: in Scenario B the merges went into `trace[0]`, which the
first timeout appended. -/
theorem merge_only_into_timeout_word_witness :
    Event.timeoutMerge 0 0 ∈ (run envB 7 (init envB 200 120000000 (fun _ => 0))).log ∧
    ∃ w, Event.timeoutAppend 0 w ∈ (run envB 7 (init envB 200 120000000 (fun _ => 0))).log :=
  ⟨by decide,
   ((merge_only_into_timeout_word envB 200 120000000 (fun _ => 0) 7).1 0 0 (by decide)).1⟩

theorem stretch_first (env : Env) (s0 : State) (htd : timeoutDetected env s0)
    (hnl : needsNewLong s0.n s0.trace s0.last_value = true) (hv : s0.last_value < 256)
    (hroom : s0.n < NMAX) : StretchAfter s0 (step env s0) 1 := by
  rw [step_append env s0 htd hnl hroom]
  refine ⟨rfl, rfl, ?_, ?_, ?_⟩
  · show s0.n + 1 = _
    omega
  · show setTrace s0.trace s0.n ((0x80000100 ||| s0.last_value) % 2 ^ 32) (s0.n + 1 - 1) = _
    rw [Nat.add_sub_cancel, setTrace_same, or_low _ _ (by norm_num) hv]
    omega
  · intro i h1 h2
    have h3 : i < s0.n + 1 := h2
    have h4 : i = s0.n := by omega
    rw [h4]
    exact (mem_concat _ _ _).mpr (Or.inr rfl)

theorem stretch_next (env : Env) (s0 s : State) (j : Nat) (h : StretchAfter s0 s j)
    (hj : 1 ≤ j) (hv : s0.last_value < 256) (htd : timeoutDetected env s)
    (hroom : s0.n + (j + 1 + 8388606) / 8388607 ≤ NMAX) :
    StretchAfter s0 (step env s) (j + 1) := by
  obtain ⟨_, hlv, hn, htr, hmem⟩ := h
  have hn0 : s.n ≠ 0 := by omega
  have hvs : s.last_value < 256 := by rw [hlv]; exact hv
  by_cases hfull : j % 8388607 = 0
  · have hnl : needsNewLong s.n s.trace s.last_value = true := by
      rw [needsNewLong_iff _ _ _ hvs]
      right
      right
      unfold countOf
      rw [htr]
      omega
    have hlt : s.n < NMAX := by omega
    rw [step_append env s htd hnl hlt]
    refine ⟨rfl, hlv, ?_, ?_, ?_⟩
    · show s.n + 1 = _
      omega
    · show setTrace s.trace s.n ((0x80000100 ||| s.last_value) % 2 ^ 32) (s.n + 1 - 1) = _
      rw [Nat.add_sub_cancel, setTrace_same, hlv, or_low _ _ (by norm_num) hv]
      omega
    · intro i h1 h2
      have h3 : i < s.n + 1 := h2
      show Event.timeoutAppend i s0.last_value
        ∈ s.log ++ [Event.timeoutAppend s.n s.last_value]
      by_cases h4 : i = s.n
      · rw [h4, hlv]
        exact (mem_concat _ _ _).mpr (Or.inr rfl)
      · exact (mem_concat _ _ _).mpr (Or.inl (hmem i h1 (by omega)))
  · have hnl : needsNewLong s.n s.trace s.last_value = false := by
      have hna : ¬ appendCase s.n s.trace s.last_value := by
        unfold appendCase fmtBit countOf sampleOf
        rw [htr, hlv]
        omega
      cases hb : needsNewLong s.n s.trace s.last_value
      · rfl
      · exact absurd ((needsNewLong_iff _ _ _ hvs).mp hb) hna
    rw [step_merge env s htd hnl]
    refine ⟨rfl, hlv, ?_, ?_, ?_⟩
    · show s.n = _
      omega
    · show setTrace s.trace (s.n - 1) ((s.trace (s.n - 1) + 0x100) % 2 ^ 32) (s.n - 1) = _
      rw [setTrace_same, htr]
      omega
    · intro i h1 h2
      exact (mem_concat _ _ _).mpr (Or.inl (hmem i h1 h2))

theorem stretch_run (env : Env) (s0 : State) (t : Nat)
    (hnl : needsNewLong s0.n s0.trace s0.last_value = true) (hv : s0.last_value < 256)
    (ht : 1 ≤ t) (H : TimeoutRun env s0 t)
    (hroom : s0.n + (t + 8388606) / 8388607 ≤ NMAX) :
    StretchAfter s0 (run env t s0) t := by
  induction t with
  | zero => omega
  | succ t ih =>
      rw [run_succ_last]
      by_cases h0 : t = 0
      · subst h0
        exact stretch_first env s0 (H 0 (by omega)) hnl hv (by omega)
      · have ih' := ih (by omega) (fun j hj => H j (by omega)) (by omega)
        exact stretch_next env s0 _ t ih' (by omega) hv (H t (by omega)) hroom

/-- C13. Adjacent long records: in every run of `record()`, when `trace[i]`
and `trace[i+1]` were both appended by the timeout path they carry the same
sample and `trace[i]` has count `2^23-1`; and a stretch of `t >= 1`
consecutive timeouts that starts at the inner test with no event yet or right
after a commit occupies, while the buffer has room, exactly
`ceil(t / (2^23-1))` words (`2^23 - 1 = 8388607`). -/
theorem adjacent_long_records (env : Env) (tmax : Int) (core_clock : Nat)
    (trace0 : Nat → Nat) (k : Nat) :
    (∀ i v w,
      Event.timeoutAppend i v ∈ (run env k (init env tmax core_clock trace0)).log →
      Event.timeoutAppend (i + 1) w ∈ (run env k (init env tmax core_clock trace0)).log →
      i + 1 < (run env k (init env tmax core_clock trace0)).n ∧
      sampleOf ((run env k (init env tmax core_clock trace0)).trace (i + 1))
        = sampleOf ((run env k (init env tmax core_clock trace0)).trace i) ∧
      countOf ((run env k (init env tmax core_clock trace0)).trace i) = 2 ^ 23 - 1) ∧
    (∀ t, (run env k (init env tmax core_clock trace0)).pc = .inner →
      ((run env k (init env tmax core_clock trace0)).log = [] ∨
        ∃ l i v e, (run env k (init env tmax core_clock trace0)).log
          = l ++ [Event.commit i v e]) →
      1 ≤ t → TimeoutRun env (run env k (init env tmax core_clock trace0)) t →
      (run env k (init env tmax core_clock trace0)).n + (t + 8388606) / 8388607 ≤ NMAX →
      (run env t (run env k (init env tmax core_clock trace0))).n
        = (run env k (init env tmax core_clock trace0)).n + (t + 8388606) / 8388607) := by
  obtain ⟨hl, hb, hle, he, hlg⟩ := run_prov env tmax core_clock trace0 k
  generalize run env k (init env tmax core_clock trace0) = s at hl hb hle he hlg ⊢
  refine ⟨?_, ?_⟩
  · intro i v w h1 h2
    obtain ⟨hc, hs⟩ := hlg.2.2.1 i v w h1 h2
    exact ⟨hb _ h2, hs, hc⟩
  · intro t hpc hstart ht H hroom
    have hnl : needsNewLong s.n s.trace s.last_value = true := by
      rcases hstart with hnil | ⟨l, i, v, e, hlog⟩
      · rw [hle.1 hnil]
        exact needsNewLong_zero _ _
      · have hne := he.2 l i v e hlog (by rw [hpc]; intro hc; cases hc)
          (by rw [hpc]; intro hc; cases hc)
        rw [needsNewLong_iff _ _ _ hl.1]
        exact Or.inr (Or.inl (fun hc => hne hc.2))
    exact (stretch_run env s t hnl hl.1 ht H hroom).2.2.1

/-- Witness for C13: on `envT` the stretch of `2^23` timeouts from the session
start occupies 2 words, both appended by the timeout path; the first has
count `2^23-1` and the same sample as the second. -/
theorem adjacent_long_records_witness :
    (run envT (2 ^ 23) (run envT 1 (init envT 0 120000000 (fun _ => 0)))).n = 2 ∧
    countOf ((run envT (1 + 2 ^ 23) (init envT 0 120000000 (fun _ => 0))).trace 0)
      = 2 ^ 23 - 1 := by
  obtain ⟨hpc, hn, hv, _, _, _, _⟩ := envT_start
  have H := envT_timeoutRun (2 ^ 23) (le_refl _)
  have hlog : (run envT 1 (init envT 0 120000000 (fun _ => 0))).log = [] := by decide
  have hA := adjacent_long_records envT 0 120000000 (fun _ => 0) 1
  have hB := adjacent_long_records envT 0 120000000 (fun _ => 0) (1 + 2 ^ 23)
  have hroom : (run envT 1 (init envT 0 120000000 (fun _ => 0))).n
      + (2 ^ 23 + 8388606) / 8388607 ≤ NMAX := by
    rw [hn]
    decide
  have hn2 := hA.2 (2 ^ 23) hpc (Or.inl hlog) (by norm_num) H hroom
  have hS := stretch_run envT (run envT 1 (init envT 0 120000000 (fun _ => 0))) (2 ^ 23)
    (by rw [hn]; exact needsNewLong_zero _ _) (by rw [hv]; decide) (by norm_num) H hroom
  rw [hn] at hn2
  have hn3 : (run envT (2 ^ 23) (run envT 1 (init envT 0 120000000 (fun _ => 0)))).n = 2 := by
    rw [hn2]
    decide
  refine ⟨hn3, ?_⟩
  have hm := hS.2.2.2.2
  rw [hn, hv, hn3] at hm
  rw [← run_add] at hm
  exact (hB.1 0 5 5 (hm 0 (le_refl _) (by decide)) (hm 1 (by decide) (by decide))).2.2

end Sniffer
